import Mathlib

/-!
Verification of the Unity-Catalog table-discovery / tree-rendering utilities,
the CSV part-merger, the retry decorator and the table-name qualification
helpers of this repository, via a shallow embedding of the Python sources.

Python strings are embedded as `List Char` (`PyStr`); Python `sorted` is
embedded as a stable insertion sort over a boolean `le`; Python exceptions
are embedded as `Except PyErr`.
-/

set_option maxRecDepth 4000

/-- Embedding of a Python `str` as its list of characters. -/
abbrev PyStr := List Char

/-- The Python exceptions raised by the embedded code. -/
inductive PyErr where
  | valueError : PyErr
  | typeError : PyErr
  | runtimeError : PyErr
  | fileNotFoundError : PyErr
deriving DecidableEq, Repr

/-- Python `str.lower()` (character-wise, as used on ASCII identifiers). -/
def pyLower (s : PyStr) : PyStr := s.map Char.toLower

/-- Python `str.strip()`: drop whitespace from both ends. -/
def pyStrip (s : PyStr) : PyStr :=
  ((s.dropWhile Char.isWhitespace).reverse.dropWhile Char.isWhitespace).reverse

/-- Python `s.count(ch)` for a single-character needle. -/
def pyCount (ch : Char) : PyStr → Nat
  | [] => 0
  | c :: rest => (if c = ch then 1 else 0) + pyCount ch rest

/-- Python `s.split(sep)` for a single-character separator. -/
def pySplit (sep : Char) : PyStr → List PyStr
  | [] => [[]]
  | c :: rest =>
    if c = sep then [] :: pySplit sep rest
    else
      match pySplit sep rest with
      | [] => [[c]]
      | h :: t => (c :: h) :: t

/-- Python `s.split(sep)[-1]`: the final dot-separated segment. -/
def lastSeg (sep : Char) (s : PyStr) : PyStr := (pySplit sep s).getLastD []

/-- Lexicographic code-point comparison, Python's `<=` on strings. -/
def pyStrLe : PyStr → PyStr → Bool
  | [], _ => true
  | _ :: _, [] => false
  | a :: as, b :: bs => if a = b then pyStrLe as bs else decide (a < b)

/-- Stable insertion of `a` into `l` before the first element `b` with
`le a b` (matches the insertion position of a stable ascending sort). -/
def bInsert (le : α → α → Bool) (a : α) : List α → List α
  | [] => [a]
  | b :: bs => if le a b then a :: b :: bs else b :: bInsert le a bs

/-- Stable sort by a boolean `le`; the embedding of Python `sorted`. -/
def bSort (le : α → α → Bool) : List α → List α
  | [] => []
  | a :: as => bInsert le a (bSort le as)

theorem bInsert_perm (le : α → α → Bool) (a : α) (l : List α) :
    (bInsert le a l).Perm (a :: l) := by
  induction l with
  | nil => exact List.Perm.refl _
  | cons b bs ih =>
    by_cases h : le a b = true
    · simp [bInsert, h]
    · simp only [bInsert, if_neg h]
      exact (ih.cons b).trans (List.Perm.swap a b bs)

theorem bSort_perm (le : α → α → Bool) (l : List α) :
    (bSort le l).Perm l := by
  induction l with
  | nil => exact List.Perm.refl _
  | cons a as ih =>
    exact (bInsert_perm le a (bSort le as)).trans (ih.cons a)

theorem bInsert_sorted (le : α → α → Bool)
    (htrans : ∀ a b c, le a b = true → le b c = true → le a c = true)
    (htot : ∀ a b, le a b = true ∨ le b a = true)
    (a : α) (l : List α)
    (hl : l.Pairwise (fun x y => le x y = true)) :
    (bInsert le a l).Pairwise (fun x y => le x y = true) := by
  induction l with
  | nil => simp [bInsert]
  | cons b bs ih =>
    rcases List.pairwise_cons.mp hl with ⟨hb, hbs⟩
    by_cases h : le a b = true
    · simp only [bInsert, if_pos h]
      refine List.pairwise_cons.mpr ⟨?_, hl⟩
      intro x hx
      rcases List.mem_cons.mp hx with hx | hx
      · exact hx ▸ h
      · exact htrans a b x h (hb x hx)
    · simp only [bInsert, if_neg h]
      refine List.pairwise_cons.mpr ⟨?_, ih hbs⟩
      intro x hx
      rcases List.mem_cons.mp ((bInsert_perm le a bs).mem_iff.mp hx) with hx' | hx'
      · rw [hx']
        rcases htot a b with hab | hba
        · exact absurd hab h
        · exact hba
      · exact hb x hx'

theorem bSort_sorted (le : α → α → Bool)
    (htrans : ∀ a b c, le a b = true → le b c = true → le a c = true)
    (htot : ∀ a b, le a b = true ∨ le b a = true)
    (l : List α) :
    (bSort le l).Pairwise (fun x y => le x y = true) := by
  induction l with
  | nil => simp [bSort]
  | cons a as ih => exact bInsert_sorted le htrans htot a (bSort le as) ih

theorem pyCount_append (ch : Char) (xs ys : PyStr) :
    pyCount ch (xs ++ ys) = pyCount ch xs + pyCount ch ys := by
  induction xs with
  | nil => simp [pyCount]
  | cons c xs ih => simp [pyCount, ih]; omega

theorem pyCount_eq_zero_iff (ch : Char) (s : PyStr) :
    pyCount ch s = 0 ↔ ch ∉ s := by
  induction s with
  | nil => simp [pyCount]
  | cons c rest ih =>
    by_cases hc : c = ch
    · subst hc
      simp [pyCount]
    · have hne : ¬ch = c := fun h => hc h.symm
      simp [pyCount, if_neg hc, ih, hne]

theorem pySplit_ne_nil (sep : Char) (s : PyStr) : pySplit sep s ≠ [] := by
  cases s with
  | nil => simp [pySplit]
  | cons c rest =>
    simp only [pySplit]
    by_cases hc : c = sep
    · simp [hc]
    · rcases hr : pySplit sep rest with _ | ⟨h, t⟩ <;> simp [hc, hr]

theorem pySplit_length (sep : Char) (s : PyStr) :
    (pySplit sep s).length = pyCount sep s + 1 := by
  induction s with
  | nil => simp [pySplit, pyCount]
  | cons c rest ih =>
    simp only [pySplit, pyCount]
    by_cases hc : c = sep
    · rw [if_pos hc, if_pos hc]
      simp only [List.length_cons, ih]
      omega
    · rcases hr : pySplit sep rest with _ | ⟨h, t⟩
      · exact absurd hr (pySplit_ne_nil sep rest)
      · rw [hr] at ih
        simp only [if_neg hc, hr, List.length_cons]
        simp only [List.length_cons] at ih
        omega

theorem pySplit_of_not_mem (sep : Char) (s : PyStr) (h : sep ∉ s) :
    pySplit sep s = [s] := by
  induction s with
  | nil => rfl
  | cons c rest ih =>
    have hc : c ≠ sep := fun hc => h (hc ▸ List.mem_cons_self c rest)
    have hrest : sep ∉ rest := fun hm => h (List.mem_cons_of_mem c hm)
    simp only [pySplit, if_neg hc, ih hrest]

theorem pySplit_append (sep : Char) (xs ys : PyStr) (h : sep ∉ xs) :
    pySplit sep (xs ++ sep :: ys) = xs :: pySplit sep ys := by
  induction xs with
  | nil => simp [pySplit]
  | cons c xs ih =>
    have hc : c ≠ sep := fun hc => h (hc ▸ List.mem_cons_self c xs)
    have hxs : sep ∉ xs := fun hm => h (List.mem_cons_of_mem c hm)
    simp only [List.cons_append, pySplit, if_neg hc, List.append_eq]
    rw [ih hxs]

theorem getLastD_of_ne_nil {l : List α} (h : l ≠ []) (d d' : α) :
    l.getLastD d = l.getLastD d' := by
  cases l with
  | nil => exact absurd rfl h
  | cons a t => rw [List.getLastD_cons, List.getLastD_cons]

theorem lastSeg_append (sep : Char) (xs ys : PyStr) :
    lastSeg sep (xs ++ sep :: ys) = lastSeg sep ys := by
  induction xs with
  | nil =>
    rw [List.nil_append, lastSeg, lastSeg]
    rw [show pySplit sep (sep :: ys) = [] :: pySplit sep ys from by simp [pySplit]]
    rw [List.getLastD_cons]
  | cons c xs ih =>
    simp only [List.cons_append, lastSeg, pySplit, List.append_eq]
    by_cases hc : c = sep
    · rw [if_pos hc, List.getLastD_cons]
      exact ih
    · rw [if_neg hc]
      rcases hr : pySplit sep (xs ++ sep :: ys) with _ | ⟨a, t⟩
      · exact absurd hr (pySplit_ne_nil sep (xs ++ sep :: ys))
      · have hlen := pySplit_length sep (xs ++ sep :: ys)
        have hcnt : 1 ≤ pyCount sep (xs ++ sep :: ys) := by
          rw [pyCount_append]
          have h1 : pyCount sep (sep :: ys) = 1 + pyCount sep ys := by simp [pyCount]
          omega
        have ht : t ≠ [] := by
          intro htnil
          rw [hr, htnil] at hlen
          simp only [List.length_cons, List.length_nil] at hlen
          omega
        show ((c :: a) :: t).getLastD [] = (pySplit sep ys).getLastD []
        simp only [lastSeg, hr, List.getLastD_cons] at ih
        rw [List.getLastD_cons, ← ih]
        exact getLastD_of_ne_nil ht _ _

theorem lastSeg_of_not_mem (sep : Char) (s : PyStr) (h : sep ∉ s) :
    lastSeg sep s = s := by
  rw [lastSeg, pySplit_of_not_mem sep s h]
  rfl

theorem pySplit_pair_inv (sep : Char) (s : PyStr) :
    ∀ a b : PyStr, pySplit sep s = [a, b] → s = a ++ sep :: b ∧ sep ∉ a ∧ sep ∉ b := by
  induction s with
  | nil =>
    intro a b h
    simp [pySplit] at h
  | cons c rest ih =>
    intro a b h
    by_cases hc : c = sep
    · rw [pySplit, if_pos hc] at h
      injection h with h1 h2
      have hcnt : pyCount sep rest = 0 := by
        have hlen := pySplit_length sep rest
        rw [h2] at hlen
        simp only [List.length_cons, List.length_nil] at hlen
        omega
      have hnm : sep ∉ rest := (pyCount_eq_zero_iff sep rest).mp hcnt
      have hrr := pySplit_of_not_mem sep rest hnm
      rw [h2] at hrr
      injection hrr with h3
      refine ⟨?_, ?_, ?_⟩
      · rw [← h1, hc, h3]
        simp
      · rw [← h1]
        simp
      · rw [h3]
        exact hnm
    · rw [pySplit, if_neg hc] at h
      rcases hr : pySplit sep rest with _ | ⟨h1, t⟩
      · exact absurd hr (pySplit_ne_nil sep rest)
      · rw [hr] at h
        injection h with hac ht
        have hpair : pySplit sep rest = [h1, b] := by rw [hr, ht]
        obtain ⟨hre, hna, hnb⟩ := ih h1 b hpair
        refine ⟨?_, ?_, hnb⟩
        · rw [← hac, hre]
          simp
        · rw [← hac]
          intro hm
          rcases List.mem_cons.mp hm with hx | hx
          · exact hc hx.symm
          · exact hna hx

theorem pyStrLe_total (a b : PyStr) : pyStrLe a b = true ∨ pyStrLe b a = true := by
  induction a generalizing b with
  | nil => left; rfl
  | cons x xs ih =>
    cases b with
    | nil => right; rfl
    | cons y ys =>
      by_cases h : x = y
      · subst h
        simp only [pyStrLe, if_pos rfl]
        exact ih ys
      · rcases lt_trichotomy x y with hlt | heq | hgt
        · left
          simp [pyStrLe, h, hlt]
        · exact absurd heq h
        · right
          have hyx : ¬y = x := fun hy => h hy.symm
          simp only [pyStrLe, if_neg hyx]
          exact decide_eq_true hgt

theorem pyStrLe_trans (a b c : PyStr) (h1 : pyStrLe a b = true) (h2 : pyStrLe b c = true) :
    pyStrLe a c = true := by
  induction a generalizing b c with
  | nil => rfl
  | cons x xs ih =>
    cases b with
    | nil => simp [pyStrLe] at h1
    | cons y ys =>
      cases c with
      | nil => simp [pyStrLe] at h2
      | cons z zs =>
        by_cases hxy : x = y <;> by_cases hyz : y = z
        · subst hxy; subst hyz
          simp only [pyStrLe, if_pos rfl] at h1 h2 ⊢
          exact ih ys zs h1 h2
        · subst hxy
          simp only [pyStrLe, if_pos rfl] at h1
          simp only [pyStrLe, if_neg hyz] at h2 ⊢
          exact h2
        · subst hyz
          simp only [pyStrLe, if_neg hxy] at h1 ⊢
          exact h1
        · simp only [pyStrLe, if_neg hxy] at h1
          simp only [pyStrLe, if_neg hyz] at h2
          have hx : x < y := of_decide_eq_true h1
          have hy : y < z := of_decide_eq_true h2
          have hxz : x < z := lt_trans hx hy
          simp [pyStrLe, ne_of_lt hxz, hxz]

theorem pyStrLe_antisymm (a b : PyStr) (h1 : pyStrLe a b = true) (h2 : pyStrLe b a = true) :
    a = b := by
  induction a generalizing b with
  | nil =>
    cases b with
    | nil => rfl
    | cons y ys => simp [pyStrLe] at h2
  | cons x xs ih =>
    cases b with
    | nil => simp [pyStrLe] at h1
    | cons y ys =>
      by_cases hxy : x = y
      · subst hxy
        simp only [pyStrLe, if_pos rfl] at h1 h2
        rw [ih ys h1 h2]
      · simp only [pyStrLe, if_neg hxy] at h1
        simp only [pyStrLe, if_neg (fun h : y = x => hxy h.symm)] at h2
        have hx := of_decide_eq_true h1
        have hy := of_decide_eq_true h2
        exact absurd (lt_trans hx hy) (lt_irrefl x)

/-- The embedding of Python `sorted` on a list of strings. -/
def pySorted (xs : List PyStr) : List PyStr := bSort pyStrLe xs

/-- The embedding of Python `sorted(set(xs))` on strings. -/
def pySetSorted (xs : List PyStr) : List PyStr := bSort pyStrLe xs.dedup

/-- Python truthiness of an `Optional[str]`: `None` and `""` are falsy. -/
def pyTruthy : Option PyStr → Bool
  | none => false
  | some s => !s.isEmpty

/-- Python `str.upper()` (character-wise, as used on ASCII identifiers). -/
def pyUpper (s : PyStr) : PyStr := s.map Char.toUpper

/-- `is_view` from `src/utils/table.py`: the (upper-cased) table type is
`VIEW` or `MATERIALIZED_VIEW`; `None` maps to `""`. -/
def is_view (table_type : Option PyStr) : Bool :=
  let t := pyUpper (table_type.getD [])
  decide (t = "VIEW".toList) || decide (t = "MATERIALIZED_VIEW".toList)

/-- `is_fully_qualified_table_name` from `src/utils/table.py`:
the name contains exactly two dots. -/
def is_fully_qualified_table_name (name : PyStr) : Bool :=
  decide (pyCount '.' name = 2)

/-- `parse_catalog_schema_fqn` from `src/utils/table.py`: split on `.`;
exactly two parts, else `ValueError`. -/
def parse_catalog_schema_fqn (schema_fqn : PyStr) : Except PyErr (PyStr × PyStr) :=
  match pySplit '.' schema_fqn with
  | [a, b] => .ok (a, b)
  | _ => .error .valueError

/-- `qualify_table_name` from `src/utils/table.py`: `f"{catalog}.{schema}.{table}"`. -/
def qualify_table_name (catalog schema table : PyStr) : PyStr :=
  catalog ++ '.' :: (schema ++ '.' :: table)

/-- `qualify_with_schema_fqn` from `src/utils/table.py`. -/
def qualify_with_schema_fqn (schema_fqn name : PyStr) : Except PyErr PyStr :=
  if is_fully_qualified_table_name name then .ok name
  else
    match parse_catalog_schema_fqn schema_fqn with
    | .ok (cat, sch) => .ok (qualify_table_name cat sch name)
    | .error e => .error e

/-- `ensure_fully_qualified` from `src/utils/table.py`. -/
def ensure_fully_qualified (name : PyStr)
    (default_schema_fqn default_catalog default_schema : Option PyStr) :
    Except PyErr PyStr :=
  if is_fully_qualified_table_name name then .ok name
  else if pyTruthy default_schema_fqn then
    qualify_with_schema_fqn (default_schema_fqn.getD []) name
  else if pyTruthy default_catalog && pyTruthy default_schema then
    .ok (qualify_table_name (default_catalog.getD []) (default_schema.getD []) name)
  else .error .valueError

/-- The exclusion configuration normalized by the `TableDiscovery` ctor:
`exclude_prefixes` are lower-cased, the single shorthand is lower-cased and
stripped (`(exclude_prefix or "").lower().strip()`). -/
structure ExcludeCfg where
  excludePrefixes : List PyStr
  excludeSingle : PyStr
deriving DecidableEq, Repr

/-- The normalization of the ctor arguments into an `ExcludeCfg`. -/
def mkExcludeCfg (excludePrefixes : Option (List PyStr)) (excludeOne : Option PyStr) :
    ExcludeCfg :=
  { excludePrefixes := (excludePrefixes.getD []).map pyLower
    excludeSingle := pyStrip (pyLower (excludeOne.getD [])) }

/-- `TableDiscovery._keep_table_name`: lower-case the name, reject it when it
starts with any configured plural prefix (when that list is nonempty) or with
the nonempty single shorthand. -/
def keep_table_name (cfg : ExcludeCfg) (tbl_name : PyStr) : Bool :=
  let n := pyLower tbl_name
  if !cfg.excludePrefixes.isEmpty && cfg.excludePrefixes.any (fun p => p.isPrefixOf n) then
    false
  else if !cfg.excludeSingle.isEmpty && cfg.excludeSingle.isPrefixOf n then false
  else true

/-- The fields of an SDK `TableInfo` used by `_list_tables_for_schema`. -/
structure TableInfo where
  name : Option PyStr
  table_type : Option PyStr
  catalog_name : PyStr
  schema_name : PyStr
deriving DecidableEq, Repr

/-- `TableDiscovery._list_tables_for_schema` on an already-obtained iterator:
skip falsy names, skip views unless `include_views`, skip excluded names, and
emit `f"{t.catalog_name}.{t.schema_name}.{tname}"`. -/
def list_tables_for_schema (cfg : ExcludeCfg) (include_views : Bool)
    (itr : List TableInfo) : List PyStr :=
  itr.filterMap (fun t =>
    match t.name with
    | none => none
    | some tname =>
      if tname.isEmpty then none
      else if !include_views && is_view t.table_type then none
      else if !keep_table_name cfg tname then none
      else some (qualify_table_name t.catalog_name t.schema_name tname))

/-- `TableDiscovery.discover_catalog_tables` (without column materialization):
extend over the per-schema listings, skipping schemas whose listing raised, and
return `sorted(set(all_tables))`.  A schema whose listing failed contributes
nothing, exactly as the `continue` branches do. -/
def discover_catalog_tables (cfg : ExcludeCfg) (include_views : Bool)
    (listings : List (Except PyErr (List TableInfo))) : List PyStr :=
  pySetSorted (listings.foldl
    (fun acc r =>
      match r with
      | .ok ts => acc ++ list_tables_for_schema cfg include_views ts
      | .error _ => acc)
    [])

/-- The fields of a pipeline event's `origin` used by
`discover_pipeline_tables`. -/
structure EventOrigin where
  update_id : Option PyStr
  flow_name : Option PyStr
deriving DecidableEq, Repr

/-- The page comprehension of `discover_pipeline_tables`: flow names of the
events whose origin `update_id` equals the latest update and whose
`flow_name` is truthy. -/
def matchingNames (latest : PyStr) (page : List EventOrigin) : List PyStr :=
  page.filterMap (fun ev =>
    match ev.flow_name with
    | none => none
    | some fn =>
      if fn.isEmpty then none
      else if ev.update_id = some latest then some fn else none)

/-- Insertion into a Python set modelled as a duplicate-free list. -/
def setInsert (s : List PyStr) (x : PyStr) : List PyStr :=
  if x ∈ s then s else s ++ [x]

/-- `names |= page_names` on the set model. -/
def setUnion (s : List PyStr) (xs : List PyStr) : List PyStr :=
  xs.foldl setInsert s

/-- The pagination loop of `discover_pipeline_tables`: slice `page_size`
events off the iterator, collect the matching flow names, reset the empty
counter on a page with matching names and bump it otherwise, and stop when
the counter reaches `empty_page_tolerance` or the page is empty.  Returns the
accumulated name set together with the trace of `(page, counter-after)`
steps, the last of which is the one the loop broke on. -/
def discoverLoop (latest : PyStr) (pageSize tol : Nat) :
    List EventOrigin → List PyStr → Nat → List PyStr × List (List EventOrigin × Nat)
  | events, names, empty =>
    let page := events.take pageSize
    let pnames := matchingNames latest page
    let names' := if pnames.isEmpty then names else setUnion names pnames
    let empty' := if pnames.isEmpty then empty + 1 else 0
    if tol ≤ empty' ∨ page = [] then (names', [(page, empty')])
    else
      let r := discoverLoop latest pageSize tol (events.drop pageSize) names' empty'
      (r.1, (page, empty') :: r.2)
  termination_by events => events.length
  decreasing_by
    rename_i hstop
    push_neg at hstop
    have hne : events.take pageSize ≠ [] := hstop.2
    have hev : events ≠ [] := by
      intro h
      exact hne (by simp [h])
    have hps : 0 < pageSize := by
      rcases Nat.eq_zero_or_pos pageSize with h0 | h
      · exact absurd (by simp [h0]) hne
      · exact h
    simp only [List.length_drop]
    have : 0 < events.length := List.length_pos.mpr hev
    omega

/-- The per-name qualification step of `discover_pipeline_tables`: keep a
fully-qualified name, otherwise try `ensure_fully_qualified` with a truthy
`assume_schema` falling back to the bare name on failure, otherwise keep the
bare name. -/
def qualifyPipelineName (assume_schema : Option PyStr) (n : PyStr) : PyStr :=
  if is_fully_qualified_table_name n then n
  else if pyTruthy assume_schema then
    match ensure_fully_qualified n assume_schema none none with
    | .ok q => q
    | .error _ => n
  else n

/-- `TableDiscovery.discover_pipeline_tables` (without column
materialization), from the located pipeline's latest update id and its event
stream: run the pagination loop, short-circuit on an empty name set, qualify
the sorted names and apply the excludes to the final dot-segment. -/
def discover_pipeline_tables (cfg : ExcludeCfg) (latest : PyStr)
    (events : List EventOrigin) (assume_schema : Option PyStr)
    (pageSize tol : Nat) : List PyStr :=
  if ((discoverLoop latest pageSize tol events [] 0).1).isEmpty then []
  else
    ((pySorted ((discoverLoop latest pageSize tol events [] 0).1)).map
      (qualifyPipelineName assume_schema)).filter
      (fun t => keep_table_name cfg (lastSeg '.' t))

/-- `TableDiscovery.discover_tables`: keep only fully-qualified identifiers
that pass the excludes on their final dot-segment. -/
def discover_tables (cfg : ExcludeCfg) (tables : List PyStr) : List PyStr :=
  tables.filter (fun t =>
    is_fully_qualified_table_name t && keep_table_name cfg (lastSeg '.' t))

/-- The `unity_catalog` sub-client consulted by the `TableDiscovery` ctor;
each API surface is either present (`some`) or absent (`none`). -/
structure UCSub (α : Type) where
  tables : Option α
  schemas : Option α
  catalogs : Option α
deriving DecidableEq, Repr

/-- The workspace client attributes consulted by the `TableDiscovery` ctor. -/
structure WClient (α : Type) where
  tables : Option α
  schemas : Option α
  catalogs : Option α
  unity_catalog : Option (UCSub α)
deriving DecidableEq, Repr

/-- `getattr(w, attr, None) or getattr(getattr(w, "unity_catalog", None), attr, None)`. -/
def resolveSurface (primary : Option α) (uc : Option (UCSub α)) (proj : UCSub α → Option α) :
    Option α :=
  match primary with
  | some v => some v
  | none => uc.bind proj

/-- The API-surface resolution and check of `TableDiscovery.__init__`:
resolve `tables`/`schemas`/`catalogs` (client attribute first, then the
`unity_catalog` attribute), and raise `RuntimeError` when the resolved
`tables` or `schemas` surface is missing. -/
def tableDiscoveryInit (w : WClient α) :
    Except PyErr (Option α × Option α × Option α) :=
  let t := resolveSurface w.tables w.unity_catalog UCSub.tables
  let s := resolveSurface w.schemas w.unity_catalog UCSub.schemas
  let c := resolveSurface w.catalogs w.unity_catalog UCSub.catalogs
  if t.isNone || s.isNone then .error .runtimeError
  else .ok (t, s, c)

/-- A Python `Union[bool, str]` value, as accepted by `save_tree`. -/
inductive PyBoolStr where
  | bool : Bool → PyBoolStr
  | str : PyStr → PyBoolStr
deriving DecidableEq, Repr

/-- Python truthiness of a `Union[bool, str]`. -/
def pyTruthyBS : PyBoolStr → Bool
  | .bool b => b
  | .str s => !s.isEmpty

/-- `pathlib.PurePath(s).name`: the last component, with empty and `.`
components dropped. -/
def pathName (s : PyStr) : PyStr :=
  ((pySplit '/' s).filter (fun comp => !comp.isEmpty && decide (comp ≠ ['.']))).getLastD []

/-- The index of the last `.` of a name (`name.rfind('.')`), if any. -/
def rfindDot (name : PyStr) : Option Nat :=
  (name.reverse.findIdx? (fun c => c = '.')).map (fun j => name.length - 1 - j)

/-- `pathlib.PurePath(...).suffix` of a bare file name: the part of the name
from its last dot, provided that dot is neither leading nor trailing. -/
def pathSuffix (name : PyStr) : PyStr :=
  match rfindDot name with
  | none => []
  | some i => if 0 < i ∧ i < name.length - 1 then name.drop i else []

/-- `pathlib.PurePath(...).stem` of a bare file name. -/
def pathStem (name : PyStr) : PyStr :=
  match rfindDot name with
  | none => name
  | some i => if 0 < i ∧ i < name.length - 1 then name.take i else name

/-- `TableDiscovery._normalize_txt_name`: `True` and falsy values map to
`"tree.txt"`; otherwise strip the string, take its path name, keep it when its
suffix lower-cases to `".txt"`, and otherwise append `".txt"` to its stem. -/
def normalize_txt_name (name : PyBoolStr) : PyStr :=
  match name with
  | .bool _ => "tree.txt".toList
  | .str s =>
    if s.isEmpty then "tree.txt".toList
    else
      let p := pathName (pyStrip s)
      if pyLower (pathSuffix p) = ".txt".toList then p
      else pathStem p ++ ".txt".toList

/-- The file name saved by `TableDiscovery.tree`, when it writes at all:
`None` when `construct_tree` is false or `save_tree` is falsy, and the
normalized `.txt` name otherwise. -/
def tree_saved (construct_tree : Bool) (save_tree : PyBoolStr) : Option PyStr :=
  if construct_tree && pyTruthyBS save_tree then some (normalize_txt_name save_tree)
  else none

/-- The list of file names `TableDiscovery.tree` writes (via `_write_text`). -/
def tree_writes (construct_tree : Bool) (save_tree : PyBoolStr) : List PyStr :=
  (tree_saved construct_tree save_tree).toList

/-- `CsvExporter._read_part`'s header skip: `f.readline()` consumes through
the first newline byte (or the whole part when it has none). -/
def dropFirstLine (b : List Nat) : List Nat :=
  (b.dropWhile (fun x => !decide (x = 10))).drop 1

/-- `CsvExporter._read_part` on a part's bytes. -/
def read_part (content : List Nat) (skip_header : Bool) : List Nat :=
  if skip_header then dropFirstLine content else content

/-- The `part-*.csv` file names of a directory listing, in Python `sorted`
(lexicographic) order. -/
def csvParts (entries : List (PyStr × List Nat)) : List PyStr :=
  pySorted ((entries.map Prod.fst).filter
    (fun f => ("part-".toList).isPrefixOf f && (".csv".toList).isSuffixOf f))

/-- Reading a listed file's bytes from the directory model. -/
def dirLookup (entries : List (PyStr × List Nat)) (f : PyStr) : List Nat :=
  ((entries.find? (fun e => decide (e.1 = f))).map Prod.snd).getD []

/-- The `(idx, bytes)` results of the thread pool in submission order:
task `i` reads part `i` and skips the header whenever `i > 0`. -/
def canonicalResults (entries : List (PyStr × List Nat)) : List (Nat × List Nat) :=
  (csvParts entries).enum.map
    (fun ip => (ip.1, read_part (dirLookup entries ip.2) (decide (0 < ip.1))))

/-- `sorted(results, key=lambda x: x[0])` followed by writing the chunks. -/
def mergeResults (results : List (Nat × List Nat)) : List Nat :=
  ((bSort (fun a b => decide (a.1 ≤ b.1)) results).map Prod.snd).flatten

/-- `os.path.dirname` (POSIX): the part of the path before its last `/`,
stripped of trailing slashes unless it consists only of slashes; a path
without a `/` has an empty dirname. -/
def pyDirname (p : PyStr) : PyStr :=
  match p.reverse.findIdx? (fun c => decide (c = '/')) with
  | none => []
  | some j =>
    let head := p.take (p.length - j)
    if head.all (fun c => decide (c = '/')) then head
    else (head.reverse.dropWhile (fun c => decide (c = '/'))).reverse

/-- `CsvExporter._merge_csv_parts` on a directory model (`none` when
`os.path.isdir` fails): `FileNotFoundError` when the directory is missing or
holds no `part-*.csv`; after the parts are read,
`os.makedirs(os.path.dirname(dest_file), exist_ok=True)` runs before the
write, and `os.makedirs("")` raises `FileNotFoundError`, so a `dest_file`
with no directory component also raises; otherwise the merged bytes are
written. -/
def merge_csv_parts (dir? : Option (List (PyStr × List Nat))) (dest_file : PyStr) :
    Except PyErr (List Nat) :=
  match dir? with
  | none => .error .fileNotFoundError
  | some entries =>
    if (csvParts entries).isEmpty then .error .fileNotFoundError
    else if pyDirname dest_file = [] then .error .fileNotFoundError
    else .ok (mergeResults (canonicalResults entries))

/-- The loop body of `RetryConfig.__call__`'s wrapper, from the current
`attempt` counter; `f k` is the outcome of invocation number `k` (0-based) and
`isCfg` is the `isinstance` test against the configured exception tuple.
Returns the wrapper's outcome and the number of invocations made. -/
def retryAttempt (maxAttempts : Nat) (isCfg : ε → Bool) (f : Nat → Except ε α) :
    Nat → Except ε α × Nat
  | attempt =>
    match f attempt with
    | .ok v => (.ok v, attempt + 1)
    | .error e =>
      if isCfg e then
        if maxAttempts ≤ attempt + 1 then (.error e, attempt + 1)
        else retryAttempt maxAttempts isCfg f (attempt + 1)
      else (.error e, attempt + 1)
  termination_by attempt => maxAttempts - attempt
  decreasing_by
    rename_i hlt
    push_neg at hlt
    omega

/-- The wrapper produced by `RetryConfig.__call__`, started at `attempt = 0`. -/
def retry_wrapper (maxAttempts : Nat) (isCfg : ε → Bool) (f : Nat → Except ε α) :
    Except ε α × Nat :=
  retryAttempt maxAttempts isCfg f 0

/-- A value of the nested dict fed to `_render_ascii`: a Python `str` (a
column dtype) or a nested dict. -/
inductive PyNode where
  | str : PyStr → PyNode
  | dict : List (PyStr × PyNode) → PyNode

mutual

def nodeSize : PyNode → Nat
  | .str _ => 0
  | .dict kvs => 1 + entrySize kvs

def entrySize : List (PyStr × PyNode) → Nat
  | [] => 0
  | kv :: rest => 1 + nodeSize kv.2 + entrySize rest

end

theorem entrySize_append (l1 l2 : List (PyStr × PyNode)) :
    entrySize (l1 ++ l2) = entrySize l1 + entrySize l2 := by
  induction l1 with
  | nil => simp [entrySize]
  | cons kv rest ih =>
    simp only [List.cons_append, entrySize, List.append_eq, ih]
    omega

theorem entrySize_perm {l1 l2 : List (PyStr × PyNode)} (h : l1.Perm l2) :
    entrySize l1 = entrySize l2 := by
  induction h with
  | nil => rfl
  | cons x _ ih => simp [entrySize, ih]
  | swap x y l => simp [entrySize]; omega
  | trans _ _ ih1 ih2 => omega

/-- `all(isinstance(v, str) for v in child.values())`. -/
def allStrVals (kvs : List (PyStr × PyNode)) : Bool :=
  kvs.all (fun kv =>
    match kv.2 with
    | .str _ => true
    | .dict _ => false)

/-- `is_leaf_cols` from `_render_ascii`: the child is a dict all of whose
values are strings. -/
def isLeafCols : PyNode → Bool
  | .str _ => false
  | .dict kvs => allStrVals kvs

/-- The case-insensitive sibling order `key=lambda kv: kv[0].lower()`. -/
def ciKeyLe (a b : PyStr × PyNode) : Bool := pyStrLe (pyLower a.1) (pyLower b.1)

/-- The payload of a `.str` node (total projection; only applied under
`allStrVals`). -/
def nodeStr : PyNode → PyStr
  | .str s => s
  | .dict _ => []

/-- The column loop of `_render_ascii`'s leaf branch: one
`next_prefix + branch + f"{cname} : {dtype}"` line per column, the last with
the `└── ` branch. -/
def colLines (nextPref : PyStr) : List (PyStr × PyNode) → List PyStr
  | [] => []
  | kv :: rest =>
    (nextPref ++ (if rest.isEmpty then "└── ".toList else "├── ".toList) ++
      kv.1 ++ " : ".toList ++ nodeStr kv.2) :: colLines nextPref rest

/-- The recursive `walk` of `_render_ascii`, applied to the already-sorted
items of a dict node; recursive calls sort the child's items.  `sp` is the
`spacious` flag; spacer lines `prefix + "│"` follow every non-final dict
child. -/
def walkItems (sp : Bool) (pref : PyStr) : List (PyStr × PyNode) → List PyStr
  | [] => []
  | (name, PyNode.str _) :: rest =>
    (pref ++ (if rest.isEmpty then "└── ".toList else "├── ".toList) ++
      name ++ ['/']) :: walkItems sp pref rest
  | (name, PyNode.dict kvs) :: rest =>
    let isLast := rest.isEmpty
    let branch := if isLast then "└── ".toList else "├── ".toList
    let nextPref := pref ++ (if isLast then "    ".toList else "│   ".toList)
    let spacer := if sp && !isLast then [pref ++ ['│']] else []
    if allStrVals kvs then
      (pref ++ branch ++ name) ::
        ((colLines nextPref (bSort ciKeyLe kvs) ++ spacer) ++ walkItems sp pref rest)
    else
      (pref ++ branch ++ name ++ ['/']) ::
        ((walkItems sp nextPref (bSort ciKeyLe kvs) ++ spacer) ++ walkItems sp pref rest)
  termination_by items => entrySize items
  decreasing_by
  all_goals
    simp only [entrySize, nodeSize]
    first
    | omega
    | (have hperm := entrySize_perm (bSort_perm ciKeyLe kvs); omega)

/-- `"\n".join(lines) + "\n"`. -/
def joinLines : List PyStr → PyStr
  | [] => ['\n']
  | [l] => l ++ ['\n']
  | l :: rest => l ++ '\n' :: joinLines rest

/-- The line list of `TableDiscovery._render_ascii`: the root label with a
trailing slash, then the walk of the nested dict sorted case-insensitively. -/
def render_ascii_lines (root_label : PyStr) (nested : List (PyStr × PyNode))
    (sp : Bool) : List PyStr :=
  (root_label ++ ['/']) :: walkItems sp [] (bSort ciKeyLe nested)

/-- `TableDiscovery._render_ascii` itself. -/
def render_ascii (root_label : PyStr) (nested : List (PyStr × PyNode))
    (sp : Bool) : PyStr :=
  joinLines (render_ascii_lines root_label nested sp)

/-- Conversion of a `{col -> dtype}` dict to node entries. -/
def colsToNode (cols : List (PyStr × PyStr)) : List (PyStr × PyNode) :=
  cols.map (fun c => (c.1, PyNode.str c.2))

/-- Conversion of the claimed `{schema -> {table -> {} or {col -> dtype}}}`
shape to the node model. -/
def nestedOfSchemas
    (schemas : List (PyStr × List (PyStr × List (PyStr × PyStr)))) :
    List (PyStr × PyNode) :=
  schemas.map (fun s =>
    (s.1, PyNode.dict ((s.2).map (fun t => (t.1, PyNode.dict (colsToNode t.2))))))

mutual

def lineWeight : PyNode → Nat
  | .str _ => 0
  | .dict kvs => if allStrVals kvs then kvs.length else itemsWeight kvs

def itemsWeight : List (PyStr × PyNode) → Nat
  | [] => 0
  | kv :: rest => 1 + lineWeight kv.2 + itemsWeight rest

end

theorem itemsWeight_perm {l1 l2 : List (PyStr × PyNode)} (h : l1.Perm l2) :
    itemsWeight l1 = itemsWeight l2 := by
  induction h with
  | nil => rfl
  | cons x _ ih => simp [itemsWeight, ih]
  | swap x y l => simp [itemsWeight]; omega
  | trans _ _ ih1 ih2 => omega

/-- Structural mirror of `discoverLoop` with an explicit fuel; it agrees with
`discoverLoop` whenever `events.length ≤ fuel` (`discoverLoop_eq_fuel`). -/
def discoverLoopFuel (latest : PyStr) (pageSize tol : Nat) :
    Nat → List EventOrigin → List PyStr → Nat →
      List PyStr × List (List EventOrigin × Nat)
  | 0, _, names, empty => (names, [([], empty + 1)])
  | fuel + 1, events, names, empty =>
    let page := events.take pageSize
    let pnames := matchingNames latest page
    let names' := if pnames.isEmpty then names else setUnion names pnames
    let empty' := if pnames.isEmpty then empty + 1 else 0
    if tol ≤ empty' ∨ page = [] then (names', [(page, empty')])
    else
      let r := discoverLoopFuel latest pageSize tol fuel (events.drop pageSize) names' empty'
      (r.1, (page, empty') :: r.2)

theorem discoverLoop_eq_fuel (latest : PyStr) (pageSize tol fuel : Nat)
    (events : List EventOrigin) (names : List PyStr) (empty : Nat)
    (h : events.length ≤ fuel) :
    discoverLoop latest pageSize tol events names empty =
      discoverLoopFuel latest pageSize tol fuel events names empty := by
  induction fuel generalizing events names empty with
  | zero =>
    have hev : events = [] := List.eq_nil_of_length_eq_zero (Nat.le_zero.mp h)
    subst hev
    rw [discoverLoop]
    simp [matchingNames, discoverLoopFuel]
  | succ fuel ih =>
    rw [discoverLoop]
    simp only [discoverLoopFuel]
    by_cases hstop :
        tol ≤ (if (matchingNames latest (events.take pageSize)).isEmpty
                then empty + 1 else 0) ∨ events.take pageSize = []
    · rw [if_pos hstop, if_pos hstop]
    · rw [if_neg hstop, if_neg hstop]
      push_neg at hstop
      have hne : events.take pageSize ≠ [] := hstop.2
      have hev : events ≠ [] := by
        intro hnil
        exact hne (by simp [hnil])
      have hps : 0 < pageSize := by
        rcases Nat.eq_zero_or_pos pageSize with h0 | hp
        · exact absurd (by simp [h0]) hne
        · exact hp
      have hlen : (events.drop pageSize).length ≤ fuel := by
        simp only [List.length_drop]
        have hpos : 0 < events.length := List.length_pos.mpr hev
        omega
      rw [ih _ _ _ hlen]

/-- Structural mirror of `retryAttempt`: `remaining` is the number of retries
still allowed, i.e. `maxAttempts - (attempt + 1)`. -/
def retryAttemptFuel (isCfg : ε → Bool) (f : Nat → Except ε α) :
    Nat → Nat → Except ε α × Nat
  | 0, attempt =>
    match f attempt with
    | .ok v => (.ok v, attempt + 1)
    | .error e => (.error e, attempt + 1)
  | r + 1, attempt =>
    match f attempt with
    | .ok v => (.ok v, attempt + 1)
    | .error e =>
      if isCfg e then retryAttemptFuel isCfg f r (attempt + 1)
      else (.error e, attempt + 1)

theorem retryAttempt_eq_fuel (maxAttempts : Nat) (isCfg : ε → Bool)
    (f : Nat → Except ε α) (remaining attempt : Nat)
    (h : remaining = maxAttempts - (attempt + 1)) :
    retryAttempt maxAttempts isCfg f attempt = retryAttemptFuel isCfg f remaining attempt := by
  induction remaining generalizing attempt with
  | zero =>
    rw [retryAttempt]
    simp only [retryAttemptFuel]
    cases f attempt with
    | ok v => rfl
    | error e =>
      show (if isCfg e = true then
              if maxAttempts ≤ attempt + 1 then (Except.error e, attempt + 1)
              else retryAttempt maxAttempts isCfg f (attempt + 1)
            else (Except.error e, attempt + 1)) = (Except.error e, attempt + 1)
      have hle : maxAttempts ≤ attempt + 1 := by omega
      by_cases hcfg : isCfg e = true
      · rw [if_pos hcfg, if_pos hle]
      · rw [if_neg hcfg]
  | succ r ih =>
    rw [retryAttempt]
    simp only [retryAttemptFuel]
    cases f attempt with
    | ok v => rfl
    | error e =>
      show (if isCfg e = true then
              if maxAttempts ≤ attempt + 1 then (Except.error e, attempt + 1)
              else retryAttempt maxAttempts isCfg f (attempt + 1)
            else (Except.error e, attempt + 1)) =
          if isCfg e = true then retryAttemptFuel isCfg f r (attempt + 1)
          else (Except.error e, attempt + 1)
      have hgt : ¬maxAttempts ≤ attempt + 1 := by omega
      by_cases hcfg : isCfg e = true
      · rw [if_pos hcfg, if_neg hgt, if_pos hcfg]
        exact ih (attempt + 1) (by omega)
      · rw [if_neg hcfg, if_neg hcfg]

theorem pyCount_cons (ch x : Char) (l : PyStr) :
    pyCount ch (x :: l) = (if x = ch then 1 else 0) + pyCount ch l := rfl

theorem pyCount_qualify (c s n : PyStr) :
    pyCount '.' (qualify_table_name c s n) =
      pyCount '.' c + pyCount '.' s + pyCount '.' n + 2 := by
  simp [qualify_table_name, pyCount_append, pyCount_cons]
  omega

theorem is_fq_of_count (name : PyStr) (h : pyCount '.' name = 2) :
    is_fully_qualified_table_name name = true := by
  simp [is_fully_qualified_table_name, h]

theorem not_is_fq_of_count (name : PyStr) (k : Nat) (h : pyCount '.' name = k)
    (hk : k ≠ 2) : is_fully_qualified_table_name name = false := by
  simp [is_fully_qualified_table_name, h, hk]

theorem ensure_ok_of_fq (name : PyStr) (a b c : Option PyStr)
    (h : pyCount '.' name = 2) :
    ensure_fully_qualified name a b c = .ok name := by
  rw [ensure_fully_qualified, if_pos (is_fq_of_count name h)]

theorem ensure_qualifies (name fqn cat sch : PyStr)
    (hn : pyCount '.' name = 0) (hf : pySplit '.' fqn = [cat, sch]) :
    ensure_fully_qualified name (some fqn) none none =
      .ok (qualify_table_name cat sch name) ∧
    pyCount '.' (qualify_table_name cat sch name) = 2 := by
  obtain ⟨hfe, hca, hsa⟩ := pySplit_pair_inv '.' fqn cat sch hf
  have hnfq : is_fully_qualified_table_name name = false :=
    not_is_fq_of_count name 0 hn (by omega)
  have htr : pyTruthy (some fqn) = true := by
    rw [hfe]
    cases cat <;> simp [pyTruthy]
  have hcc : pyCount '.' cat = 0 := (pyCount_eq_zero_iff '.' cat).mpr hca
  have hsc : pyCount '.' sch = 0 := (pyCount_eq_zero_iff '.' sch).mpr hsa
  constructor
  · rw [ensure_fully_qualified, if_neg (by simp [hnfq]), if_pos htr]
    simp only [Option.getD_some]
    rw [qualify_with_schema_fqn, if_neg (by simp [hnfq]), parse_catalog_schema_fqn, hf]
  · rw [pyCount_qualify]
    omega

/-- C10 counterexample: `ensure_fully_qualified("t", default_schema_fqn="abc")`
raises `ValueError` even though `default_schema_fqn` IS provided (it is truthy
but not of the `catalog.schema` form), so "raises ValueError exactly when ...
neither default_schema_fqn nor the default_catalog/default_schema pair is
provided" is false. -/
theorem c10_counterexample :
    ensure_fully_qualified "t".toList (some "abc".toList) none none =
        .error .valueError ∧
    pyTruthy (some "abc".toList) = true ∧
    is_fully_qualified_table_name "t".toList = false := by
  refine ⟨rfl, by decide, by decide⟩

/-- C10 (amended): `ensure_fully_qualified` returns a name with exactly two
dots unchanged; a dot-free name with a `default_schema_fqn` that splits into
`catalog.schema` becomes `catalog.schema.name`, which is fully qualified, and
re-applying the function to that result returns it unchanged (idempotence);
and it raises `ValueError` exactly when the name is not fully qualified and
either the truthy `default_schema_fqn` does not split into two parts, or no
truthy `default_schema_fqn` is given and the `default_catalog`/
`default_schema` pair is not both truthy. -/
theorem c10_ensure_fully_qualified_amended :
    (∀ (name : PyStr) (a b c : Option PyStr), pyCount '.' name = 2 →
      ensure_fully_qualified name a b c = .ok name) ∧
    (∀ (name fqn cat sch : PyStr), pyCount '.' name = 0 →
      pySplit '.' fqn = [cat, sch] →
      ensure_fully_qualified name (some fqn) none none =
        .ok (qualify_table_name cat sch name) ∧
      is_fully_qualified_table_name (qualify_table_name cat sch name) = true ∧
      (∀ (a b c : Option PyStr),
        ensure_fully_qualified (qualify_table_name cat sch name) a b c =
          .ok (qualify_table_name cat sch name))) ∧
    (∀ (name : PyStr) (fqn cat sch : Option PyStr),
      (∃ e, ensure_fully_qualified name fqn cat sch = .error e) ↔
        (is_fully_qualified_table_name name = false ∧
          ((pyTruthy fqn = true ∧
              ∀ a b, pySplit '.' (fqn.getD []) ≠ [a, b]) ∨
            (pyTruthy fqn = false ∧ ¬(pyTruthy cat = true ∧ pyTruthy sch = true))))) := by
  refine ⟨fun name a b c h => ensure_ok_of_fq name a b c h, ?_, ?_⟩
  · intro name fqn cat sch hn hf
    obtain ⟨h1, h2⟩ := ensure_qualifies name fqn cat sch hn hf
    exact ⟨h1, is_fq_of_count _ h2, fun a b c => ensure_ok_of_fq _ a b c h2⟩
  · intro name fqn cat sch
    constructor
    · intro ⟨e, he⟩
      by_cases hfq : is_fully_qualified_table_name name = true
      · rw [ensure_fully_qualified, if_pos hfq] at he
        exact absurd he (by simp)
      · have hfq' : is_fully_qualified_table_name name = false := by
          simpa using hfq
        refine ⟨hfq', ?_⟩
        rw [ensure_fully_qualified, if_neg (by simp [hfq'])] at he
        by_cases htr : pyTruthy fqn = true
        · left
          refine ⟨htr, ?_⟩
          intro a b hab
          rw [if_pos htr, qualify_with_schema_fqn, if_neg (by simp [hfq']),
            parse_catalog_schema_fqn, hab] at he
          exact absurd he (by simp)
        · right
          have htr' : pyTruthy fqn = false := by simpa using htr
          refine ⟨htr', ?_⟩
          intro ⟨hc, hs⟩
          rw [if_neg (by simp [htr']), if_pos (by simp [hc, hs])] at he
          exact absurd he (by simp)
    · intro ⟨hfq, hcase⟩
      rw [ensure_fully_qualified, if_neg (by simp [hfq])]
      rcases hcase with ⟨htr, hnoparse⟩ | ⟨htr, hnopair⟩
      · rw [if_pos htr, qualify_with_schema_fqn, if_neg (by simp [hfq]),
          parse_catalog_schema_fqn]
        rcases hsp : pySplit '.' (fqn.getD []) with _ | ⟨a, t⟩
        · exact ⟨.valueError, rfl⟩
        · rcases t with _ | ⟨b, t2⟩
          · exact ⟨.valueError, rfl⟩
          · rcases t2 with _ | ⟨c, t3⟩
            · exact absurd hsp (hnoparse a b)
            · exact ⟨.valueError, rfl⟩
      · rw [if_neg (by simp [htr]), if_neg (by
          intro hb
          rcases Bool.and_eq_true _ _ |>.mp hb with ⟨h1, h2⟩
          exact hnopair ⟨h1, h2⟩)]
        exact ⟨.valueError, rfl⟩

/-- C10 witness: the amended theorem applied at `name = "tbl"`,
`default_schema_fqn = "cat.sch"`. -/
theorem c10_witness :
    ensure_fully_qualified "tbl".toList (some "cat.sch".toList) none none =
      .ok (qualify_table_name "cat".toList "sch".toList "tbl".toList) :=
  ((c10_ensure_fully_qualified_amended.2.1 "tbl".toList "cat.sch".toList
    "cat".toList "sch".toList (by decide) (by decide)).1)

/-- C2: the qualification step of `discover_pipeline_tables` is tri-state:
a name with exactly two dots is passed through unchanged; a bare (dot-free)
name is qualified to `catalog.schema.name` when `assume_schema` of the form
`catalog.schema` is given; and a bare name with no `assume_schema` is passed
through unqualified. -/
theorem c2_pipeline_qualification_tristate :
    (∀ (assume_schema : Option PyStr) (n : PyStr), pyCount '.' n = 2 →
      qualifyPipelineName assume_schema n = n) ∧
    (∀ (n fqn cat sch : PyStr), pyCount '.' n = 0 →
      pySplit '.' fqn = [cat, sch] →
      qualifyPipelineName (some fqn) n = qualify_table_name cat sch n) ∧
    (∀ (n : PyStr), pyCount '.' n = 0 → qualifyPipelineName none n = n) := by
  refine ⟨?_, ?_, ?_⟩
  · intro assume_schema n h
    rw [qualifyPipelineName, if_pos (is_fq_of_count n h)]
  · intro n fqn cat sch hn hf
    obtain ⟨hfe, hca, hsa⟩ := pySplit_pair_inv '.' fqn cat sch hf
    have hnfq : is_fully_qualified_table_name n = false :=
      not_is_fq_of_count n 0 hn (by omega)
    have htr : pyTruthy (some fqn) = true := by
      rw [hfe]
      cases cat <;> simp [pyTruthy]
    rw [qualifyPipelineName, if_neg (by simp [hnfq]), if_pos htr,
      (ensure_qualifies n fqn cat sch hn hf).1]
  · intro n hn
    have hnfq : is_fully_qualified_table_name n = false :=
      not_is_fq_of_count n 0 hn (by omega)
    rw [qualifyPipelineName, if_neg (by simp [hnfq])]
    rfl

/-- C2 witness: the tri-state theorem applied at `"c.s.t"`, at `"t"` with
`assume_schema = "c.s"`, and at `"t"` with no `assume_schema`. -/
theorem c2_witness :
    qualifyPipelineName (some "x.y".toList) "c.s.t".toList = "c.s.t".toList ∧
    qualifyPipelineName (some "c.s".toList) "t".toList =
      qualify_table_name "c".toList "s".toList "t".toList ∧
    qualifyPipelineName none "t".toList = "t".toList :=
  ⟨c2_pipeline_qualification_tristate.1 (some "x.y".toList) "c.s.t".toList (by decide),
   c2_pipeline_qualification_tristate.2.1 "t".toList "c.s".toList "c".toList "s".toList
     (by decide) (by decide),
   c2_pipeline_qualification_tristate.2.2 "t".toList (by decide)⟩

/-- C7: the ctor resolves each surface by consulting the client attribute
first and the same attribute of `unity_catalog` otherwise, and raises
`RuntimeError` if and only if the resolved `tables` or `schemas` surface is
missing; on success the stored surfaces are exactly the resolved ones. -/
theorem c7_ctor_surface_resolution (α : Type) (w : WClient α) :
    (∀ (v : α) (uc : Option (UCSub α)) (proj : UCSub α → Option α),
      resolveSurface (some v) uc proj = some v) ∧
    (∀ (uc : Option (UCSub α)) (proj : UCSub α → Option α),
      resolveSurface none uc proj = uc.bind proj) ∧
    ((∃ e, tableDiscoveryInit w = .error e) ↔
      resolveSurface w.tables w.unity_catalog UCSub.tables = none ∨
        resolveSurface w.schemas w.unity_catalog UCSub.schemas = none) ∧
    (∀ e, tableDiscoveryInit w = .error e → e = .runtimeError) ∧
    (∀ t s c, tableDiscoveryInit w = .ok (t, s, c) →
      t = resolveSurface w.tables w.unity_catalog UCSub.tables ∧
      s = resolveSurface w.schemas w.unity_catalog UCSub.schemas ∧
      c = resolveSurface w.catalogs w.unity_catalog UCSub.catalogs) := by
  refine ⟨fun v uc proj => rfl, fun uc proj => rfl, ?_, ?_, ?_⟩
  · constructor
    · intro ⟨e, he⟩
      rw [tableDiscoveryInit] at he
      by_cases hc :
          (resolveSurface w.tables w.unity_catalog UCSub.tables).isNone ∨
            (resolveSurface w.schemas w.unity_catalog UCSub.schemas).isNone
      · rcases hc with hc | hc
        · exact Or.inl (Option.isNone_iff_eq_none.mp hc)
        · exact Or.inr (Option.isNone_iff_eq_none.mp hc)
      · rw [if_neg (by
          intro hb
          rcases Bool.or_eq_true _ _ |>.mp hb with h1 | h1
          · exact hc (Or.inl h1)
          · exact hc (Or.inr h1))] at he
        exact absurd he (by simp)
    · intro hnone
      rw [tableDiscoveryInit]
      rw [if_pos (by
        rcases hnone with h1 | h1
        · exact Bool.or_eq_true _ _ |>.mpr (Or.inl (by simp [h1]))
        · exact Bool.or_eq_true _ _ |>.mpr (Or.inr (by simp [h1])))]
      exact ⟨.runtimeError, rfl⟩
  · intro e he
    rw [tableDiscoveryInit] at he
    by_cases hc :
        ((resolveSurface w.tables w.unity_catalog UCSub.tables).isNone ||
          (resolveSurface w.schemas w.unity_catalog UCSub.schemas).isNone) = true
    · rw [if_pos hc] at he
      exact (Except.error.inj he).symm
    · rw [if_neg hc] at he
      exact absurd he (by simp)
  · intro t s c hok
    rw [tableDiscoveryInit] at hok
    by_cases hc :
        ((resolveSurface w.tables w.unity_catalog UCSub.tables).isNone ||
          (resolveSurface w.schemas w.unity_catalog UCSub.schemas).isNone) = true
    · rw [if_pos hc] at hok
      exact absurd hok (by simp)
    · rw [if_neg hc] at hok
      have h3 := Except.ok.inj hok
      have h4 := (Prod.mk.inj h3).1
      have h5 := (Prod.mk.inj (Prod.mk.inj h3).2).1
      have h6 := (Prod.mk.inj (Prod.mk.inj h3).2).2
      exact ⟨h4.symm, h5.symm, h6.symm⟩

/-- C7 witness: a client whose `tables` surface lives only on
`unity_catalog` and whose `schemas` surface is on the client resolves without
error; removing both `schemas` surfaces makes the ctor raise. -/
theorem c7_witness :
    (∃ e, tableDiscoveryInit
      ({ tables := none, schemas := none, catalogs := none,
         unity_catalog := some { tables := some 1, schemas := none, catalogs := none } } :
        WClient Nat) = .error e) ∧
    tableDiscoveryInit
      ({ tables := none, schemas := some 2, catalogs := none,
         unity_catalog := some { tables := some 1, schemas := none, catalogs := none } } :
        WClient Nat) = .ok (some 1, some 2, none) := by
  constructor
  · exact (c7_ctor_surface_resolution Nat _).2.2.1.mpr (Or.inr (by decide))
  · rfl

theorem normalize_lower_suffix (bs : PyBoolStr) :
    (".txt".toList).isSuffixOf (pyLower (normalize_txt_name bs)) = true := by
  have hnil : ¬(pyLower ([] : PyStr) = ".txt".toList) := by decide
  cases bs with
  | bool b => cases b <;> decide
  | str s =>
    by_cases hs : s.isEmpty = true
    · rw [normalize_txt_name, if_pos hs]
      decide
    · rw [normalize_txt_name, if_neg hs]
      by_cases hsuf : pyLower (pathSuffix (pathName (pyStrip s))) = ".txt".toList
      · rw [if_pos hsuf]
        rw [pathSuffix] at hsuf
        rcases hr : rfindDot (pathName (pyStrip s)) with _ | i
        · rw [hr] at hsuf
          exact absurd hsuf hnil
        · rw [hr] at hsuf
          have hsuf2 : pyLower
              (if 0 < i ∧ i < (pathName (pyStrip s)).length - 1 then
                (pathName (pyStrip s)).drop i else []) = ".txt".toList := hsuf
          by_cases hcond : 0 < i ∧ i < (pathName (pyStrip s)).length - 1
          · rw [if_pos hcond] at hsuf2
            have hdist : pyLower ((pathName (pyStrip s)).drop i) =
                (pyLower (pathName (pyStrip s))).drop i := by
              simp [pyLower, List.map_drop]
            rw [hdist] at hsuf2
            rw [← hsuf2]
            exact List.isSuffixOf_iff_suffix.mpr (List.drop_suffix i _)
          · rw [if_neg hcond] at hsuf2
            exact absurd hsuf2 hnil
      · rw [if_neg hsuf]
        rw [pyLower, List.map_append]
        have htxt : (".txt".toList).map Char.toLower = ".txt".toList := by decide
        rw [htxt]
        exact List.isSuffixOf_iff_suffix.mpr (List.suffix_append _ _)

/-- C8 counterexample: with `save_tree = "a.TXT"`, `tree` writes exactly one
file named `a.TXT`, which does not (case-sensitively) end in `.txt`, so
"writes exactly one file whose name ends in '.txt'" is false as stated. -/
theorem c8_counterexample :
    tree_writes true (.str "a.TXT".toList) = ["a.TXT".toList] ∧
    (".txt".toList).isSuffixOf ("a.TXT".toList) = false := by
  exact ⟨rfl, by decide⟩

/-- C8 (amended): `tree` writes at most one file; it writes exactly one file
if and only if `construct_tree` is true and `save_tree` is truthy, returning
`None` as the saved path otherwise; and each written file's name ends in
`.txt` case-insensitively (its lower-casing ends in `.txt`). -/
theorem c8_tree_persistence_amended :
    (∀ (ct : Bool) (st : PyBoolStr), (tree_writes ct st).length ≤ 1) ∧
    (∀ (ct : Bool) (st : PyBoolStr),
      ((tree_writes ct st).length = 1 ↔ ct = true ∧ pyTruthyBS st = true)) ∧
    (∀ (ct : Bool) (st : PyBoolStr),
      (tree_saved ct st = none ↔ ¬(ct = true ∧ pyTruthyBS st = true))) ∧
    (∀ (ct : Bool) (st : PyBoolStr) (f : PyStr), f ∈ tree_writes ct st →
      (".txt".toList).isSuffixOf (pyLower f) = true) := by
  refine ⟨?_, ?_, ?_, ?_⟩
  · intro ct st
    rw [tree_writes, tree_saved]
    by_cases h : (ct && pyTruthyBS st) = true
    · rw [if_pos h]; simp
    · rw [if_neg h]; simp
  · intro ct st
    rw [tree_writes, tree_saved]
    by_cases h : (ct && pyTruthyBS st) = true
    · rw [if_pos h]
      simp only [Option.toList_some, List.length_singleton, true_iff]
      exact Bool.and_eq_true _ _ |>.mp h
    · rw [if_neg h]
      simp only [Option.toList_none, List.length_nil]
      constructor
      · omega
      · intro ⟨h1, h2⟩
        exact absurd (Bool.and_eq_true _ _ |>.mpr ⟨h1, h2⟩) h
  · intro ct st
    rw [tree_saved]
    by_cases h : (ct && pyTruthyBS st) = true
    · rw [if_pos h]
      simp only [reduceCtorEq, false_iff, not_not]
      exact Bool.and_eq_true _ _ |>.mp h
    · rw [if_neg h]
      simp only [true_iff]
      intro ⟨h1, h2⟩
      exact absurd (Bool.and_eq_true _ _ |>.mpr ⟨h1, h2⟩) h
  · intro ct st f hf
    rw [tree_writes, tree_saved] at hf
    by_cases h : (ct && pyTruthyBS st) = true
    · rw [if_pos h] at hf
      simp only [Option.toList_some, List.mem_singleton] at hf
      rw [hf]
      exact normalize_lower_suffix st
    · rw [if_neg h] at hf
      simp at hf

/-- C8 witness: the amended theorem applied with `save_tree = "notes.TXT"`,
whose written file name lower-cases to a `.txt` name. -/
theorem c8_witness :
    ("notes.TXT".toList ∈ tree_writes true (.str "notes.TXT".toList)) ∧
    (".txt".toList).isSuffixOf (pyLower "notes.TXT".toList) = true :=
  ⟨by decide,
   c8_tree_persistence_amended.2.2.2 true (.str "notes.TXT".toList)
     "notes.TXT".toList (by decide)⟩

theorem mem_pySetSorted (x : PyStr) (xs : List PyStr) :
    x ∈ pySetSorted xs ↔ x ∈ xs := by
  rw [pySetSorted, (bSort_perm pyStrLe xs.dedup).mem_iff]
  exact List.mem_dedup

theorem mem_catalog_fold (cfg : ExcludeCfg) (iv : Bool)
    (listings : List (Except PyErr (List TableInfo))) (acc : List PyStr) (x : PyStr) :
    x ∈ listings.foldl
        (fun acc r =>
          match r with
          | .ok ts => acc ++ list_tables_for_schema cfg iv ts
          | .error _ => acc)
        acc ↔
      x ∈ acc ∨ ∃ ts, Except.ok ts ∈ listings ∧ x ∈ list_tables_for_schema cfg iv ts := by
  induction listings generalizing acc with
  | nil => simp
  | cons r rest ih =>
    cases r with
    | ok ts =>
      simp only [List.foldl_cons]
      rw [ih]
      simp only [List.mem_append, List.mem_cons]
      constructor
      · rintro ((hx | hx) | ⟨ts2, h1, h2⟩)
        · exact Or.inl hx
        · exact Or.inr ⟨ts, Or.inl rfl, hx⟩
        · exact Or.inr ⟨ts2, Or.inr h1, h2⟩
      · rintro (hx | ⟨ts2, (h1 | h1), h2⟩)
        · exact Or.inl (Or.inl hx)
        · exact Or.inl (Or.inr ((Except.ok.inj h1) ▸ h2))
        · exact Or.inr ⟨ts2, h1, h2⟩
    | error e =>
      simp only [List.foldl_cons]
      rw [ih]
      simp only [List.mem_cons]
      constructor
      · rintro (hx | ⟨ts2, h1, h2⟩)
        · exact Or.inl hx
        · exact Or.inr ⟨ts2, Or.inr h1, h2⟩
      · rintro (hx | ⟨ts2, (h1 | h1), h2⟩)
        · exact Or.inl hx
        · exact absurd h1 (by simp)
        · exact Or.inr ⟨ts2, h1, h2⟩

theorem lastSeg_qualify (c s n : PyStr) :
    lastSeg '.' (qualify_table_name c s n) = lastSeg '.' n := by
  rw [qualify_table_name, lastSeg_append, lastSeg_append]

/-- C3 counterexample: with `exclude_prefix = "tmp_"`, a listed table whose
`name` attribute is the dotted string `a.tmp_x` passes `_keep_table_name`
(applied to the whole name), so `discover_catalog_tables` returns
`c.s.a.tmp_x`, whose final dot-separated segment `tmp_x` fails
`_keep_table_name`. -/
theorem c3_counterexample :
    discover_catalog_tables (mkExcludeCfg none (some "tmp_".toList)) false
        [.ok [⟨some "a.tmp_x".toList, none, "c".toList, "s".toList⟩]] =
      ["c.s.a.tmp_x".toList] ∧
    keep_table_name (mkExcludeCfg none (some "tmp_".toList))
      (lastSeg '.' "c.s.a.tmp_x".toList) = false := by
  exact ⟨by decide, by decide⟩

/-- C3 (amended): every table returned by `discover_pipeline_tables` and by
`discover_tables` has a final dot-segment passing `_keep_table_name`; every
table returned by `discover_catalog_tables` comes from a listed `TableInfo`
whose `name` attribute itself passes `_keep_table_name` (the exclusion test is
applied to that attribute, not to the final segment), and hence its final
segment passes the excludes whenever that name is dot-free. -/
theorem c3_excludes_amended :
    (∀ (cfg : ExcludeCfg) (latest : PyStr) (events : List EventOrigin)
        (assume_schema : Option PyStr) (ps tol : Nat) (t : PyStr),
      t ∈ discover_pipeline_tables cfg latest events assume_schema ps tol →
      keep_table_name cfg (lastSeg '.' t) = true) ∧
    (∀ (cfg : ExcludeCfg) (tables : List PyStr) (t : PyStr),
      t ∈ discover_tables cfg tables →
      is_fully_qualified_table_name t = true ∧
        keep_table_name cfg (lastSeg '.' t) = true) ∧
    (∀ (cfg : ExcludeCfg) (iv : Bool)
        (listings : List (Except PyErr (List TableInfo))) (t : PyStr),
      t ∈ discover_catalog_tables cfg iv listings →
      ∃ ts info n, Except.ok ts ∈ listings ∧ info ∈ ts ∧
        info.name = some n ∧ keep_table_name cfg n = true ∧
        t = qualify_table_name info.catalog_name info.schema_name n ∧
        (pyCount '.' n = 0 → keep_table_name cfg (lastSeg '.' t) = true)) := by
  refine ⟨?_, ?_, ?_⟩
  · intro cfg latest events assume_schema ps tol t ht
    rw [discover_pipeline_tables] at ht
    by_cases hne : ((discoverLoop latest ps tol events [] 0).1).isEmpty = true
    · rw [if_pos hne] at ht
      exact absurd ht (by simp)
    · rw [if_neg hne] at ht
      exact (List.mem_filter.mp ht).2
  · intro cfg tables t ht
    rw [discover_tables] at ht
    have h := (List.mem_filter.mp ht).2
    exact Bool.and_eq_true _ _ |>.mp h
  · intro cfg iv listings t ht
    rw [discover_catalog_tables, mem_pySetSorted, mem_catalog_fold] at ht
    rcases ht with ht | ⟨ts, hts, hx⟩
    · exact absurd ht (by simp)
    · rw [list_tables_for_schema] at hx
      rcases List.mem_filterMap.mp hx with ⟨info, hinfo, heq⟩
      rcases hn : info.name with _ | n
      · rw [hn] at heq
        exact absurd (heq : (none : Option PyStr) = some t) (by simp)
      · rw [hn] at heq
        have heq2 : (if n.isEmpty then none
            else if !iv && is_view info.table_type then none
            else if !keep_table_name cfg n then none
            else some (qualify_table_name info.catalog_name info.schema_name n)) =
            some t := heq
        by_cases h1 : n.isEmpty = true
        · rw [if_pos h1] at heq2
          exact absurd heq2 (by simp)
        · rw [if_neg h1] at heq2
          by_cases h2 : (!iv && is_view info.table_type) = true
          · rw [if_pos h2] at heq2
            exact absurd heq2 (by simp)
          · rw [if_neg h2] at heq2
            by_cases h3 : (!keep_table_name cfg n) = true
            · rw [if_pos h3] at heq2
              exact absurd heq2 (by simp)
            · rw [if_neg h3] at heq2
              have hkeep : keep_table_name cfg n = true := by
                rcases Bool.eq_false_or_eq_true (keep_table_name cfg n) with h | h
                · exact h
                · exact absurd (by simp [h]) h3
              have hteq : t = qualify_table_name info.catalog_name info.schema_name n :=
                (Option.some.inj heq2).symm
              refine ⟨ts, info, n, hts, hinfo, hn, hkeep, hteq, ?_⟩
              intro hdot
              rw [hteq, lastSeg_qualify,
                lastSeg_of_not_mem '.' n ((pyCount_eq_zero_iff '.' n).mp hdot)]
              exact hkeep

/-- C3 witness: the amended theorem applied to a pipeline run, an explicit
identifier list, and a catalog listing with a dot-free table name. -/
theorem c3_witness :
    keep_table_name (mkExcludeCfg none (some "tmp_".toList))
        (lastSeg '.' "c.s.t".toList) = true ∧
    is_fully_qualified_table_name "c.s.t".toList = true ∧
    (∃ ts info n,
      Except.ok ts ∈ ([.ok [⟨some "t".toList, none, "c".toList, "s".toList⟩]] :
          List (Except PyErr (List TableInfo))) ∧
        info ∈ ts ∧ info.name = some n ∧
        keep_table_name (mkExcludeCfg none (some "tmp_".toList)) n = true ∧
        "c.s.t".toList = qualify_table_name info.catalog_name info.schema_name n ∧
        (pyCount '.' n = 0 →
          keep_table_name (mkExcludeCfg none (some "tmp_".toList))
            (lastSeg '.' "c.s.t".toList) = true)) := by
  refine ⟨?_, by decide, ?_⟩
  · exact c3_excludes_amended.2.1 (mkExcludeCfg none (some "tmp_".toList))
      ["c.s.t".toList] "c.s.t".toList (by decide) |>.2
  · exact c3_excludes_amended.2.2 (mkExcludeCfg none (some "tmp_".toList)) false
      [.ok [⟨some "t".toList, none, "c".toList, "s".toList⟩]] "c.s.t".toList (by decide)

theorem setInsert_nodup (s : List PyStr) (x : PyStr) (h : s.Nodup) :
    (setInsert s x).Nodup := by
  rw [setInsert]
  by_cases hx : x ∈ s
  · rw [if_pos hx]
    exact h
  · rw [if_neg hx]
    simp [List.nodup_append, h, hx]

theorem setUnion_nodup (xs : List PyStr) : ∀ s : List PyStr, s.Nodup →
    (setUnion s xs).Nodup := by
  induction xs with
  | nil => intro s h; exact h
  | cons x rest ih =>
    intro s h
    rw [setUnion, List.foldl_cons]
    exact ih (setInsert s x) (setInsert_nodup s x h)

theorem discoverLoopFuel_names_nodup (latest : PyStr) (ps tol : Nat) :
    ∀ (fuel : Nat) (events : List EventOrigin) (names : List PyStr) (empty : Nat),
      names.Nodup → (discoverLoopFuel latest ps tol fuel events names empty).1.Nodup := by
  intro fuel
  induction fuel with
  | zero => intro events names empty h; exact h
  | succ fuel ih =>
    intro events names empty h
    rw [discoverLoopFuel]
    have hnames' :
        (if (matchingNames latest (events.take ps)).isEmpty then names
          else setUnion names (matchingNames latest (events.take ps))).Nodup := by
      by_cases hp : (matchingNames latest (events.take ps)).isEmpty = true
      · rw [if_pos hp]; exact h
      · rw [if_neg hp]; exact setUnion_nodup _ names h
    by_cases hstop :
        tol ≤ (if (matchingNames latest (events.take ps)).isEmpty
                then empty + 1 else 0) ∨ events.take ps = []
    · rw [if_pos hstop]
      exact hnames'
    · rw [if_neg hstop]
      exact ih (events.drop ps) _ _ hnames'

theorem qualifyPipelineName_none (n : PyStr) : qualifyPipelineName none n = n := by
  rw [qualifyPipelineName]
  by_cases h : is_fully_qualified_table_name n = true
  · rw [if_pos h]
  · rw [if_neg h]
    rfl

/-- C4 counterexample: with `assume_schema = "c.s"` and event flow names
`{"c.s.t", "t"}`, qualification maps both collected names to `c.s.t`, so the
list returned by `discover_pipeline_tables` contains a duplicate. -/
theorem c4_counterexample :
    discover_pipeline_tables (mkExcludeCfg none none) "u".toList
        [⟨some "u".toList, some "c.s.t".toList⟩, ⟨some "u".toList, some "t".toList⟩]
        (some "c.s".toList) 250 2 = ["c.s.t".toList, "c.s.t".toList] ∧
    ¬(["c.s.t".toList, "c.s.t".toList] : List PyStr).Nodup := by
  constructor
  · rw [discover_pipeline_tables, discoverLoop_eq_fuel _ _ _ 2 _ _ _ (by decide)]
    decide
  · decide

/-- C4 (amended): `discover_catalog_tables` returns a duplicate-free list in
Python-sorted (lexicographic) order; the flow-name set accumulated by the
pagination loop of `discover_pipeline_tables` is duplicate-free; and the list
returned by `discover_pipeline_tables` is duplicate-free whenever no
`assume_schema` is given (qualification can otherwise merge two distinct
collected names into the same fully-qualified name). -/
theorem c4_dedup_amended :
    (∀ (cfg : ExcludeCfg) (iv : Bool)
        (listings : List (Except PyErr (List TableInfo))),
      (discover_catalog_tables cfg iv listings).Nodup ∧
        (discover_catalog_tables cfg iv listings).Pairwise
          (fun a b => pyStrLe a b = true)) ∧
    (∀ (latest : PyStr) (ps tol : Nat) (events : List EventOrigin),
      ((discoverLoop latest ps tol events [] 0).1).Nodup) ∧
    (∀ (cfg : ExcludeCfg) (latest : PyStr) (events : List EventOrigin)
        (ps tol : Nat),
      (discover_pipeline_tables cfg latest events none ps tol).Nodup) := by
  have hloop : ∀ (latest : PyStr) (ps tol : Nat) (events : List EventOrigin),
      ((discoverLoop latest ps tol events [] 0).1).Nodup := by
    intro latest ps tol events
    rw [discoverLoop_eq_fuel latest ps tol events.length events [] 0 le_rfl]
    exact discoverLoopFuel_names_nodup latest ps tol events.length events [] 0
      List.nodup_nil
  refine ⟨?_, hloop, ?_⟩
  · intro cfg iv listings
    constructor
    · rw [discover_catalog_tables, pySetSorted]
      exact (bSort_perm pyStrLe _).nodup_iff.mpr (List.nodup_dedup _)
    · rw [discover_catalog_tables, pySetSorted]
      exact bSort_sorted pyStrLe pyStrLe_trans pyStrLe_total _
  · intro cfg latest events ps tol
    rw [discover_pipeline_tables]
    by_cases hne : ((discoverLoop latest ps tol events [] 0).1).isEmpty = true
    · rw [if_pos hne]
      exact List.nodup_nil
    · rw [if_neg hne]
      have hmap : ((pySorted ((discoverLoop latest ps tol events [] 0).1)).map
          (qualifyPipelineName none)) =
          pySorted ((discoverLoop latest ps tol events [] 0).1) := by
        rw [List.map_congr_left (fun a _ => qualifyPipelineName_none a)]
        exact List.map_id _
      rw [hmap]
      refine List.Nodup.filter _ ?_
      rw [pySorted]
      exact (bSort_perm pyStrLe _).nodup_iff.mpr (hloop latest ps tol events)

theorem retryFuelZero_ok {ε α : Type} (isCfg : ε → Bool) (f : Nat → Except ε α)
    (attempt : Nat) (v : α) (hf : f attempt = .ok v) :
    retryAttemptFuel isCfg f 0 attempt = (.ok v, attempt + 1) := by
  rw [retryAttemptFuel, hf]

theorem retryFuelZero_error {ε α : Type} (isCfg : ε → Bool) (f : Nat → Except ε α)
    (attempt : Nat) (e : ε) (hf : f attempt = .error e) :
    retryAttemptFuel isCfg f 0 attempt = (.error e, attempt + 1) := by
  rw [retryAttemptFuel, hf]

theorem retryFuelSucc_ok {ε α : Type} (isCfg : ε → Bool) (f : Nat → Except ε α)
    (r attempt : Nat) (v : α) (hf : f attempt = .ok v) :
    retryAttemptFuel isCfg f (r + 1) attempt = (.ok v, attempt + 1) := by
  rw [retryAttemptFuel, hf]

theorem retryFuelSucc_error {ε α : Type} (isCfg : ε → Bool) (f : Nat → Except ε α)
    (r attempt : Nat) (e : ε) (hf : f attempt = .error e) :
    retryAttemptFuel isCfg f (r + 1) attempt =
      if isCfg e = true then retryAttemptFuel isCfg f r (attempt + 1)
      else (.error e, attempt + 1) := by
  rw [retryAttemptFuel, hf]

theorem retryFuel_count {ε α : Type} (isCfg : ε → Bool) (f : Nat → Except ε α) :
    ∀ (remaining attempt : Nat),
      (retryAttemptFuel isCfg f remaining attempt).2 ≤ attempt + remaining + 1 := by
  intro remaining
  induction remaining with
  | zero =>
    intro attempt
    cases hf : f attempt with
    | ok v =>
      rw [retryFuelZero_ok isCfg f attempt v hf]
    | error e =>
      rw [retryFuelZero_error isCfg f attempt e hf]
  | succ r ih =>
    intro attempt
    cases hf : f attempt with
    | ok v =>
      rw [retryFuelSucc_ok isCfg f r attempt v hf]
      show attempt + 1 ≤ attempt + (r + 1) + 1
      omega
    | error e =>
      rw [retryFuelSucc_error isCfg f r attempt e hf]
      by_cases hc : isCfg e = true
      · rw [if_pos hc]
        have := ih (attempt + 1)
        omega
      · rw [if_neg hc]
        show attempt + 1 ≤ attempt + (r + 1) + 1
        omega

theorem retryFuel_allfail {ε α : Type} (isCfg : ε → Bool) (f : Nat → Except ε α) :
    ∀ (remaining attempt : Nat),
      (∀ k, attempt ≤ k → k ≤ attempt + remaining →
        ∃ e, f k = .error e ∧ isCfg e = true) →
      ∃ e, f (attempt + remaining) = .error e ∧
        retryAttemptFuel isCfg f remaining attempt =
          (.error e, attempt + remaining + 1) := by
  intro remaining
  induction remaining with
  | zero =>
    intro attempt hall
    obtain ⟨e, hf, hc⟩ := hall attempt le_rfl (by omega)
    exact ⟨e, by simpa using hf, retryFuelZero_error isCfg f attempt e hf⟩
  | succ r ih =>
    intro attempt hall
    obtain ⟨e, hf, hc⟩ := hall attempt le_rfl (by omega)
    obtain ⟨e2, hf2, hres⟩ := ih (attempt + 1)
      (fun k h1 h2 => hall k (by omega) (by omega))
    refine ⟨e2, ?_, ?_⟩
    · rw [show attempt + (r + 1) = attempt + 1 + r by omega]
      exact hf2
    · rw [retryFuelSucc_error isCfg f r attempt e hf, if_pos hc, hres]
      rw [show attempt + 1 + r = attempt + (r + 1) by omega]

theorem retryFuel_skip {ε α : Type} (isCfg : ε → Bool) (f : Nat → Except ε α) :
    ∀ (j remaining attempt : Nat), j ≤ remaining →
      (∀ i, i < j → ∃ e, f (attempt + i) = .error e ∧ isCfg e = true) →
      retryAttemptFuel isCfg f remaining attempt =
        retryAttemptFuel isCfg f (remaining - j) (attempt + j) := by
  intro j
  induction j with
  | zero =>
    intro remaining attempt _ _
    simp
  | succ jj ih =>
    intro remaining attempt hle hall
    obtain ⟨e, hf, hc⟩ := hall 0 (by omega)
    rw [Nat.add_zero] at hf
    cases remaining with
    | zero => omega
    | succ rr =>
      rw [retryFuelSucc_error isCfg f rr attempt e hf, if_pos hc,
        ih rr (attempt + 1) (by omega)
          (fun i hi => by
            obtain ⟨e2, h1, h2⟩ := hall (i + 1) (by omega)
            refine ⟨e2, ?_, h2⟩
            rw [show attempt + 1 + i = attempt + (i + 1) by omega]
            exact h1)]
      rw [show rr + 1 - (jj + 1) = rr - jj by omega,
        show attempt + 1 + jj = attempt + (jj + 1) by omega]

/-- C9: with `max_attempts = n ≥ 1`, the wrapper built by
`RetryConfig.__call__` invokes the wrapped function at most `n` times; it
returns the value of the first invocation that succeeds (all earlier
invocations having raised configured exceptions); if all `n` invocations
raise configured exceptions, it re-raises the exception of the `n`-th
invocation after exactly `n` invocations; and an exception outside the
configured tuple propagates immediately, with no further invocation. -/
theorem c9_retry_semantics {ε α : Type} (n : Nat) (isCfg : ε → Bool)
    (f : Nat → Except ε α) (hn : 1 ≤ n) :
    ((retry_wrapper n isCfg f).2 ≤ n) ∧
    ((∀ k, k < n → ∃ e, f k = .error e ∧ isCfg e = true) →
      ∃ e, f (n - 1) = .error e ∧ retry_wrapper n isCfg f = (.error e, n)) ∧
    (∀ k v, k < n → f k = .ok v →
      (∀ j, j < k → ∃ e, f j = .error e ∧ isCfg e = true) →
      retry_wrapper n isCfg f = (.ok v, k + 1)) ∧
    (∀ k e, k < n → f k = .error e → isCfg e = false →
      (∀ j, j < k → ∃ e2, f j = .error e2 ∧ isCfg e2 = true) →
      retry_wrapper n isCfg f = (.error e, k + 1)) := by
  have hwrap : retry_wrapper n isCfg f = retryAttemptFuel isCfg f (n - 1) 0 := by
    rw [retry_wrapper, retryAttempt_eq_fuel n isCfg f (n - 1) 0 (by omega)]
  refine ⟨?_, ?_, ?_, ?_⟩
  · rw [hwrap]
    have := retryFuel_count isCfg f (n - 1) 0
    omega
  · intro hall
    rw [hwrap]
    obtain ⟨e, hf, hres⟩ := retryFuel_allfail isCfg f (n - 1) 0
      (fun k h1 h2 => hall k (by omega))
    refine ⟨e, by simpa using hf, ?_⟩
    rw [hres, show 0 + (n - 1) + 1 = n by omega]
  · intro k v hk hf hprev
    rw [hwrap, retryFuel_skip isCfg f k (n - 1) 0 (by omega)
      (fun i hi => by simpa using hprev i hi), Nat.zero_add]
    cases hrem : n - 1 - k with
    | zero => exact retryFuelZero_ok isCfg f k v hf
    | succ rr => exact retryFuelSucc_ok isCfg f rr k v hf
  · intro k e hk hf hcfg hprev
    rw [hwrap, retryFuel_skip isCfg f k (n - 1) 0 (by omega)
      (fun i hi => by simpa using hprev i hi), Nat.zero_add]
    cases hrem : n - 1 - k with
    | zero => exact retryFuelZero_error isCfg f k e hf
    | succ rr =>
      rw [retryFuelSucc_error isCfg f rr k e hf, if_neg (by simp [hcfg])]

/-- C9 witness: a function that raises a configured exception once and then
succeeds is invoked twice under `max_attempts = 3` and returns the second
invocation's value. -/
theorem c9_witness :
    retry_wrapper 3 (fun _ : Nat => true)
        (fun k => if k = 0 then (Except.error 7 : Except Nat Nat) else .ok 42) =
      (.ok 42, 2) :=
  (c9_retry_semantics 3 (fun _ => true)
    (fun k => if k = 0 then (Except.error 7 : Except Nat Nat) else .ok 42)
    (by omega)).2.2.1 1 42 (by omega) rfl
    (fun j hj => ⟨7, by
      interval_cases j
      exact ⟨rfl, rfl⟩⟩)

theorem bSort_eq_self (le : α → α → Bool) (l : List α)
    (h : l.Pairwise (fun a b => le a b = true)) : bSort le l = l := by
  induction l with
  | nil => rfl
  | cons a as ih =>
    rcases List.pairwise_cons.mp h with ⟨ha, has⟩
    rw [bSort, ih has]
    cases as with
    | nil => rfl
    | cons b bs => rw [bInsert, if_pos (ha b (List.mem_cons_self b bs))]

theorem enumFrom_pairwise_le (l : List α) :
    ∀ n : Nat, (List.enumFrom n l).Pairwise (fun a b => a.1 ≤ b.1) := by
  induction l with
  | nil => intro n; simp
  | cons x xs ih =>
    intro n
    rw [List.enumFrom]
    refine List.pairwise_cons.mpr ⟨?_, ih (n + 1)⟩
    intro y hy
    rcases y with ⟨i, v⟩
    have := List.mem_enumFrom hy
    omega

/-- The boolean key order used by `sorted(results, key=lambda x: x[0])`. -/
def idxLe {β : Type} (a b : Nat × β) : Bool := decide (a.1 ≤ b.1)

theorem bSortIdx_eq_of_perm {β : Type} (l1 l2 : List (Nat × β)) (hp : l1.Perm l2)
    (hnd : (l1.map Prod.fst).Nodup) :
    bSort idxLe l1 = bSort idxLe l2 := by
  have htrans : ∀ a b c : Nat × β, idxLe a b = true → idxLe b c = true →
      idxLe a c = true := by
    intro a b c h1 h2
    simp only [idxLe, decide_eq_true_eq] at *
    omega
  have htot : ∀ a b : Nat × β, idxLe a b = true ∨ idxLe b a = true := by
    intro a b
    simp only [idxLe, decide_eq_true_eq]
    omega
  have hs1 := bSort_sorted idxLe htrans htot l1
  have hs2 := bSort_sorted idxLe htrans htot l2
  have hperm : (bSort idxLe l1).Perm (bSort idxLe l2) :=
    (bSort_perm idxLe l1).trans (hp.trans (bSort_perm idxLe l2).symm)
  have hne1 : l1.Pairwise (fun a b => a.1 ≠ b.1) := List.pairwise_map.mp hnd
  have hne1s : (bSort idxLe l1).Pairwise (fun a b => a.1 ≠ b.1) :=
    ((bSort_perm idxLe l1).pairwise_iff (fun h => h.symm)).mpr hne1
  have hne2s : (bSort idxLe l2).Pairwise (fun a b => a.1 ≠ b.1) :=
    (hperm.pairwise_iff (fun h => h.symm)).mp hne1s
  have hlt1 : (bSort idxLe l1).Pairwise (fun a b => a.1 < b.1) :=
    (hs1.and hne1s).imp (fun h => by
      have h1 := h.1
      simp only [idxLe, decide_eq_true_eq] at h1
      omega)
  have hlt2 : (bSort idxLe l2).Pairwise (fun a b => a.1 < b.1) :=
    (hs2.and hne2s).imp (fun h => by
      have h1 := h.1
      simp only [idxLe, decide_eq_true_eq] at h1
      omega)
  haveI : IsAntisymm (Nat × β) (fun a b => a.1 < b.1) :=
    ⟨fun a b h1 h2 => absurd (lt_trans h1 h2) (lt_irrefl _)⟩
  exact List.eq_of_perm_of_sorted hperm hlt1 hlt2

theorem canonicalResults_keys (entries : List (PyStr × List Nat)) :
    (canonicalResults entries).map Prod.fst = List.range (csvParts entries).length := by
  rw [canonicalResults, List.map_map]
  have : (Prod.fst ∘ fun ip : Nat × PyStr =>
      (ip.1, read_part (dirLookup entries ip.2) (decide (0 < ip.1)))) = Prod.fst := rfl
  rw [this, List.enum_map_fst]

theorem canonicalResults_sorted (entries : List (PyStr × List Nat)) :
    (canonicalResults entries).Pairwise (fun a b => idxLe a b = true) := by
  rw [canonicalResults]
  refine List.pairwise_map.mpr ?_
  have henum := enumFrom_pairwise_le (csvParts entries) 0
  exact henum.imp (fun h => by
    simp only [idxLe, decide_eq_true_eq]
    exact h)

theorem mergeResults_canonical (entries : List (PyStr × List Nat)) :
    mergeResults (canonicalResults entries) =
      ((csvParts entries).enum.map
        (fun ip => read_part (dirLookup entries ip.2) (decide (0 < ip.1)))).flatten := by
  rw [mergeResults]
  rw [show (fun a b : Nat × List Nat => decide (a.1 ≤ b.1)) = idxLe from rfl]
  rw [bSort_eq_self idxLe _ (canonicalResults_sorted entries)]
  rw [canonicalResults, List.map_map]
  rfl

/-- C6 counterexample: on an existing source directory that does contain a
`part-*.csv`, merging into `dest_file = "out.csv"` (no directory component)
still raises `FileNotFoundError`, because the code runs
`os.makedirs(os.path.dirname(dest_file), exist_ok=True)` and
`os.path.dirname("out.csv") = ""` while `os.makedirs("")` raises; so "raises
FileNotFoundError exactly when the source directory does not exist or
contains no such part file" is false. -/
theorem c6_counterexample :
    csvParts [("part-0.csv".toList, [104, 10, 49])] ≠ [] ∧
    pyDirname "out.csv".toList = [] ∧
    merge_csv_parts (some [("part-0.csv".toList, [104, 10, 49])]) "out.csv".toList =
      .error .fileNotFoundError := by
  refine ⟨by decide, by decide, rfl⟩

/-- C6 (amended): `_merge_csv_parts` raises `FileNotFoundError` exactly when
the source directory does not exist, or contains no `part-*.csv` file, or the
destination file has no directory component (the `os.makedirs` of its empty
dirname raises); otherwise the destination content is the byte-concatenation
of the `part-*.csv` files in lexicographic filename order with the first line
removed from every part except the first; and any thread-scheduling
permutation of the read results leaves the output unchanged (the
`sorted(..., key=idx)` step restores task order). -/
theorem c6_merge_csv_parts_amended :
    (∀ dest, merge_csv_parts none dest = .error .fileNotFoundError) ∧
    (∀ entries dest,
      merge_csv_parts (some entries) dest = .error .fileNotFoundError ↔
        (csvParts entries = [] ∨ pyDirname dest = [])) ∧
    (∀ entries dest, csvParts entries ≠ [] → pyDirname dest ≠ [] →
      merge_csv_parts (some entries) dest =
        .ok (((csvParts entries).enum.map
          (fun ip => read_part (dirLookup entries ip.2) (decide (0 < ip.1)))).flatten)) ∧
    (∀ entries (results : List (Nat × List Nat)),
      results.Perm (canonicalResults entries) →
      mergeResults results = mergeResults (canonicalResults entries)) := by
  refine ⟨fun dest => rfl, ?_, ?_, ?_⟩
  · intro entries dest
    rw [merge_csv_parts]
    by_cases h : (csvParts entries).isEmpty = true
    · rw [if_pos h]
      simp only [true_iff]
      exact Or.inl (List.isEmpty_iff.mp h)
    · rw [if_neg h]
      by_cases hd : pyDirname dest = []
      · rw [if_pos hd]
        simp only [true_iff]
        exact Or.inr hd
      · rw [if_neg hd]
        constructor
        · intro hc
          exact absurd hc (by simp)
        · intro hc
          rcases hc with hc | hc
          · exact absurd (List.isEmpty_iff.mpr hc) h
          · exact absurd hc hd
  · intro entries dest hne hd
    rw [merge_csv_parts, if_neg (by
      intro hb
      exact hne (List.isEmpty_iff.mp hb)), if_neg hd]
    rw [mergeResults_canonical]
  · intro entries results hperm
    rw [mergeResults, mergeResults]
    rw [show (fun a b : Nat × List Nat => decide (a.1 ≤ b.1)) = idxLe from rfl]
    rw [bSortIdx_eq_of_perm results (canonicalResults entries) hperm
      (by
        have hkeys :
            (results.map Prod.fst).Perm ((canonicalResults entries).map Prod.fst) :=
          hperm.map Prod.fst
        rw [hkeys.nodup_iff, canonicalResults_keys]
        exact List.nodup_range _)]

/-- C6 witness: a directory with two part files and a destination inside a
directory, whose thread results arrive in reversed order, merges to header
plus both data lines in part order. -/
theorem c6_amended_witness :
    csvParts [("part-1.csv".toList, [104, 10, 50]), ("part-0.csv".toList, [104, 10, 49])] ≠ [] ∧
    pyDirname "tmp/out.csv".toList ≠ [] ∧
    merge_csv_parts
        (some [("part-1.csv".toList, [104, 10, 50]), ("part-0.csv".toList, [104, 10, 49])])
        "tmp/out.csv".toList =
      .ok [104, 10, 49, 50] ∧
    mergeResults [(1, [50]), (0, [104, 10, 49])] = [104, 10, 49, 50] := by
  have hparts : csvParts
      [("part-1.csv".toList, [104, 10, 50]), ("part-0.csv".toList, [104, 10, 49])] ≠ [] := by
    decide
  have hdir : pyDirname "tmp/out.csv".toList ≠ [] := by decide
  have h2 := c6_merge_csv_parts_amended.2.2.1
    [("part-1.csv".toList, [104, 10, 50]), ("part-0.csv".toList, [104, 10, 49])]
    "tmp/out.csv".toList hparts hdir
  have h3 := c6_merge_csv_parts_amended.2.2.2
    [("part-1.csv".toList, [104, 10, 50]), ("part-0.csv".toList, [104, 10, 49])]
    [(1, [50]), (0, [104, 10, 49])]
    (by decide)
  refine ⟨hparts, hdir, ?_, ?_⟩
  · rw [h2]
    rfl
  · rw [h3]
    rfl

/-- Modelled from the spec: the pagination loop as the claim words it, where
the empty-page counter resets only when a page contributes NEW matching flow
names (names not already collected), rather than — as the code does — on any
page with matching flow names.  Structural fuel form, for comparison with
`discoverLoop`. -/
def discoverLoopNewFuel (latest : PyStr) (pageSize tol : Nat) :
    Nat → List EventOrigin → List PyStr → Nat →
      List PyStr × List (List EventOrigin × Nat)
  | 0, _, names, empty => (names, [([], empty + 1)])
  | fuel + 1, events, names, empty =>
    let page := events.take pageSize
    let pnames := matchingNames latest page
    let contributesNew := pnames.any (fun n => decide (n ∉ names))
    let names' := if pnames.isEmpty then names else setUnion names pnames
    let empty' := if contributesNew then 0 else empty + 1
    if tol ≤ empty' ∨ page = [] then (names', [(page, empty')])
    else
      let r := discoverLoopNewFuel latest pageSize tol fuel
        (events.drop pageSize) names' empty'
      (r.1, (page, empty') :: r.2)

/-- C1 counterexample: with `page_size = 1`, `empty_page_tolerance = 1` and
three identical matching events, the code's loop fetches 4 pages (it resets
the counter on every page holding matching names even when none are new),
while the claim's stopping rule — tolerance-many consecutive pages with no
NEW matching flow names — would stop after 2 pages; so "stops exactly when
... contribute no new matching flow names" is false. -/
theorem c1_counterexample :
    ((discoverLoop "u".toList 1 1
        [⟨some "u".toList, some "a".toList⟩, ⟨some "u".toList, some "a".toList⟩,
         ⟨some "u".toList, some "a".toList⟩] [] 0).2.length = 4) ∧
    ((discoverLoopNewFuel "u".toList 1 1 4
        [⟨some "u".toList, some "a".toList⟩, ⟨some "u".toList, some "a".toList⟩,
         ⟨some "u".toList, some "a".toList⟩] [] 0).2.length = 2) := by
  constructor
  · rw [discoverLoop_eq_fuel _ _ _ 3 _ _ _ (by decide)]
    decide
  · decide

theorem mem_setInsert (y x : PyStr) (s : List PyStr) (h : y ∈ setInsert s x) :
    y ∈ s ∨ y = x := by
  rw [setInsert] at h
  by_cases hx : x ∈ s
  · rw [if_pos hx] at h
    exact Or.inl h
  · rw [if_neg hx] at h
    rcases List.mem_append.mp h with h1 | h1
    · exact Or.inl h1
    · exact Or.inr (List.mem_singleton.mp h1)

theorem mem_setUnion (y : PyStr) (xs : List PyStr) :
    ∀ s : List PyStr, y ∈ setUnion s xs → y ∈ s ∨ y ∈ xs := by
  induction xs with
  | nil => intro s h; exact Or.inl h
  | cons x rest ih =>
    intro s h
    rw [setUnion, List.foldl_cons] at h
    rcases ih (setInsert s x) h with h1 | h1
    · rcases mem_setInsert y x s h1 with h2 | h2
      · exact Or.inl h2
      · exact Or.inr (h2 ▸ List.mem_cons_self x rest)
    · exact Or.inr (List.mem_cons_of_mem x h1)

theorem mem_matchingNames (latest : PyStr) (page : List EventOrigin) (n : PyStr)
    (h : n ∈ matchingNames latest page) :
    ∃ ev ∈ page, ev.update_id = some latest ∧ ev.flow_name = some n := by
  rw [matchingNames] at h
  rcases List.mem_filterMap.mp h with ⟨ev, hev, heq⟩
  rcases hfn : ev.flow_name with _ | fn
  · rw [hfn] at heq
    exact absurd (heq : (none : Option PyStr) = some n) (by simp)
  · rw [hfn] at heq
    have heq2 : (if fn.isEmpty then none
        else if ev.update_id = some latest then some fn else none) = some n := heq
    by_cases h1 : fn.isEmpty = true
    · rw [if_pos h1] at heq2
      exact absurd heq2 (by simp)
    · rw [if_neg h1] at heq2
      by_cases h2 : ev.update_id = some latest
      · rw [if_pos h2] at heq2
        exact ⟨ev, hev, h2, by rw [hfn]; exact heq2⟩
      · rw [if_neg h2] at heq2
        exact absurd heq2 (by simp)

theorem fuelLoop_steps_ne_nil (latest : PyStr) (ps tol : Nat) :
    ∀ (fuel : Nat) (events : List EventOrigin) (names : List PyStr) (empty : Nat),
      (discoverLoopFuel latest ps tol fuel events names empty).2 ≠ [] := by
  intro fuel
  induction fuel with
  | zero =>
    intro events names empty
    simp [discoverLoopFuel]
  | succ fuel ih =>
    intro events names empty
    simp only [discoverLoopFuel]
    by_cases hstop :
        tol ≤ (if (matchingNames latest (events.take ps)).isEmpty
                then empty + 1 else 0) ∨ events.take ps = []
    · rw [if_pos hstop]
      simp
    · rw [if_neg hstop]
      simp

theorem fuelLoop_steps_len (latest : PyStr) (ps tol : Nat) :
    ∀ (fuel : Nat) (events : List EventOrigin) (names : List PyStr) (empty : Nat),
      (discoverLoopFuel latest ps tol fuel events names empty).2.length ≤
        events.length + 1 := by
  intro fuel
  induction fuel with
  | zero =>
    intro events names empty
    simp [discoverLoopFuel]
  | succ fuel ih =>
    intro events names empty
    simp only [discoverLoopFuel]
    by_cases hstop :
        tol ≤ (if (matchingNames latest (events.take ps)).isEmpty
                then empty + 1 else 0) ∨ events.take ps = []
    · rw [if_pos hstop]
      simp
    · rw [if_neg hstop]
      push_neg at hstop
      have hne : events.take ps ≠ [] := hstop.2
      have hev : events ≠ [] := fun hnil => hne (by simp [hnil])
      have hps : 0 < ps := by
        rcases Nat.eq_zero_or_pos ps with h0 | hp
        · exact absurd (by simp [h0]) hne
        · exact hp
      have hih := ih (events.drop ps)
        (if (matchingNames latest (events.take ps)).isEmpty then names
          else setUnion names (matchingNames latest (events.take ps)))
        (if (matchingNames latest (events.take ps)).isEmpty then empty + 1 else 0)
      simp only [List.length_cons]
      simp only [List.length_drop] at hih
      have hpos : 0 < events.length := List.length_pos.mpr hev
      omega

theorem fuelLoop_last_stop (latest : PyStr) (ps tol : Nat) :
    ∀ (fuel : Nat) (events : List EventOrigin) (names : List PyStr) (empty : Nat),
      tol ≤ (((discoverLoopFuel latest ps tol fuel events names empty).2).getLastD
          ([], 0)).2 ∨
        (((discoverLoopFuel latest ps tol fuel events names empty).2).getLastD
          ([], 0)).1 = [] := by
  intro fuel
  induction fuel with
  | zero =>
    intro events names empty
    right
    rfl
  | succ fuel ih =>
    intro events names empty
    simp only [discoverLoopFuel]
    by_cases hstop :
        tol ≤ (if (matchingNames latest (events.take ps)).isEmpty
                then empty + 1 else 0) ∨ events.take ps = []
    · rw [if_pos hstop]
      simpa using hstop
    · rw [if_neg hstop]
      have hne := fuelLoop_steps_ne_nil latest ps tol fuel (events.drop ps)
        (if (matchingNames latest (events.take ps)).isEmpty then names
          else setUnion names (matchingNames latest (events.take ps)))
        (if (matchingNames latest (events.take ps)).isEmpty then empty + 1 else 0)
      have hih := ih (events.drop ps)
        (if (matchingNames latest (events.take ps)).isEmpty then names
          else setUnion names (matchingNames latest (events.take ps)))
        (if (matchingNames latest (events.take ps)).isEmpty then empty + 1 else 0)
      rw [List.getLastD_cons, getLastD_of_ne_nil hne _ ([], 0)]
      exact hih

theorem fuelLoop_nonfinal (latest : PyStr) (ps tol : Nat) :
    ∀ (fuel : Nat) (events : List EventOrigin) (names : List PyStr) (empty : Nat)
      (i : Nat),
      i + 1 < (discoverLoopFuel latest ps tol fuel events names empty).2.length →
      ¬tol ≤ (((discoverLoopFuel latest ps tol fuel events names empty).2).getD i
          ([], 0)).2 ∧
        (((discoverLoopFuel latest ps tol fuel events names empty).2).getD i
          ([], 0)).1 ≠ [] := by
  intro fuel
  induction fuel with
  | zero =>
    intro events names empty i hi
    simp [discoverLoopFuel] at hi
  | succ fuel ih =>
    intro events names empty i hi
    simp only [discoverLoopFuel] at hi ⊢
    by_cases hstop :
        tol ≤ (if (matchingNames latest (events.take ps)).isEmpty
                then empty + 1 else 0) ∨ events.take ps = []
    · rw [if_pos hstop] at hi
      simp at hi
    · rw [if_neg hstop] at hi ⊢
      have hno := not_or.mp hstop
      cases i with
      | zero =>
        simp only [List.getD_cons_zero]
        exact ⟨hno.1, hno.2⟩
      | succ i =>
        simp only [List.getD_cons_succ]
        simp only [List.length_cons] at hi
        exact ih (events.drop ps) _ _ i (by omega)

theorem fuelLoop_counter_head (latest : PyStr) (ps tol : Nat) :
    ∀ (fuel : Nat) (events : List EventOrigin) (names : List PyStr) (empty : Nat),
      (((discoverLoopFuel latest ps tol fuel events names empty).2).getD 0
          ([], 0)).2 =
        if matchingNames latest
            (((discoverLoopFuel latest ps tol fuel events names empty).2).getD 0
              ([], 0)).1 = [] then empty + 1 else 0 := by
  intro fuel
  induction fuel with
  | zero =>
    intro events names empty
    rfl
  | succ fuel ih =>
    intro events names empty
    simp only [discoverLoopFuel]
    by_cases hstop :
        tol ≤ (if (matchingNames latest (events.take ps)).isEmpty
                then empty + 1 else 0) ∨ events.take ps = []
    · rw [if_pos hstop, List.getD_cons_zero]
      by_cases hp : matchingNames latest (events.take ps) = []
      · rw [if_pos (List.isEmpty_iff.mpr hp), if_pos hp]
      · rw [if_neg (fun hb => hp (List.isEmpty_iff.mp hb)), if_neg hp]
    · rw [if_neg hstop, List.getD_cons_zero]
      by_cases hp : matchingNames latest (events.take ps) = []
      · rw [if_pos (List.isEmpty_iff.mpr hp), if_pos hp]
      · rw [if_neg (fun hb => hp (List.isEmpty_iff.mp hb)), if_neg hp]

theorem fuelLoop_counter_chain (latest : PyStr) (ps tol : Nat) :
    ∀ (fuel : Nat) (events : List EventOrigin) (names : List PyStr) (empty : Nat)
      (i : Nat),
      i + 1 < (discoverLoopFuel latest ps tol fuel events names empty).2.length →
      (((discoverLoopFuel latest ps tol fuel events names empty).2).getD (i + 1)
          ([], 0)).2 =
        if matchingNames latest
            (((discoverLoopFuel latest ps tol fuel events names empty).2).getD
              (i + 1) ([], 0)).1 = [] then
          (((discoverLoopFuel latest ps tol fuel events names empty).2).getD i
            ([], 0)).2 + 1
        else 0 := by
  intro fuel
  induction fuel with
  | zero =>
    intro events names empty i hi
    simp [discoverLoopFuel] at hi
  | succ fuel ih =>
    intro events names empty i hi
    simp only [discoverLoopFuel] at hi ⊢
    by_cases hstop :
        tol ≤ (if (matchingNames latest (events.take ps)).isEmpty
                then empty + 1 else 0) ∨ events.take ps = []
    · rw [if_pos hstop] at hi
      simp at hi
    · rw [if_neg hstop] at hi ⊢
      cases i with
      | zero =>
        simp only [List.getD_cons_succ, List.getD_cons_zero]
        exact fuelLoop_counter_head latest ps tol fuel (events.drop ps) _ _
      | succ i =>
        simp only [List.getD_cons_succ]
        simp only [List.length_cons] at hi
        exact ih (events.drop ps) _ _ i (by omega)

theorem fuelLoop_names_sound (latest : PyStr) (ps tol : Nat) :
    ∀ (fuel : Nat) (events : List EventOrigin) (names : List PyStr) (empty : Nat)
      (n : PyStr),
      n ∈ (discoverLoopFuel latest ps tol fuel events names empty).1 →
      n ∈ names ∨
        ∃ ev ∈ events, ev.update_id = some latest ∧ ev.flow_name = some n := by
  intro fuel
  induction fuel with
  | zero =>
    intro events names empty n hn
    exact Or.inl hn
  | succ fuel ih =>
    intro events names empty n hn
    simp only [discoverLoopFuel] at hn
    have hnames' : n ∈ (if (matchingNames latest (events.take ps)).isEmpty then names
          else setUnion names (matchingNames latest (events.take ps))) →
        n ∈ names ∨
          ∃ ev ∈ events, ev.update_id = some latest ∧ ev.flow_name = some n := by
      intro hm
      by_cases hp : (matchingNames latest (events.take ps)).isEmpty = true
      · rw [if_pos hp] at hm
        exact Or.inl hm
      · rw [if_neg hp] at hm
        rcases mem_setUnion n _ names hm with h1 | h1
        · exact Or.inl h1
        · obtain ⟨ev, hev, hupd, hfl⟩ := mem_matchingNames latest _ n h1
          exact Or.inr ⟨ev, List.take_subset ps events hev, hupd, hfl⟩
    by_cases hstop :
        tol ≤ (if (matchingNames latest (events.take ps)).isEmpty
                then empty + 1 else 0) ∨ events.take ps = []
    · rw [if_pos hstop] at hn
      exact hnames' hn
    · rw [if_neg hstop] at hn
      rcases ih (events.drop ps) _ _ n hn with h1 | ⟨ev, hev, hupd, hfl⟩
      · exact hnames' h1
      · exact Or.inr ⟨ev, List.drop_subset ps events hev, hupd, hfl⟩

/-- C1 (amended): for every finite event stream the pagination loop of
`discover_pipeline_tables` terminates after at most `events.length + 1`
pages; writing its trace as the list of `(page, counter-after)` steps, the
loop stops exactly when the counter reaches `empty_page_tolerance` or the
fetched page is empty — i.e. the last step satisfies that condition and no
earlier step does; the counter after a page is `0` exactly when the page
holds matching flow names (regardless of novelty) and otherwise increments
the previous counter, so the stop condition reads "`empty_page_tolerance`
consecutive pages contributed no matching flow names (new or not), or a page
was empty"; and every collected name is the flow name of an event whose
origin `update_id` equals the latest update. -/
theorem c1_pagination_loop_amended (latest : PyStr) (ps tol : Nat)
    (events : List EventOrigin) :
    ((discoverLoop latest ps tol events [] 0).2 ≠ []) ∧
    ((discoverLoop latest ps tol events [] 0).2.length ≤ events.length + 1) ∧
    (tol ≤ (((discoverLoop latest ps tol events [] 0).2).getLastD ([], 0)).2 ∨
      (((discoverLoop latest ps tol events [] 0).2).getLastD ([], 0)).1 = []) ∧
    (∀ i, i + 1 < (discoverLoop latest ps tol events [] 0).2.length →
      ¬tol ≤ (((discoverLoop latest ps tol events [] 0).2).getD i ([], 0)).2 ∧
        (((discoverLoop latest ps tol events [] 0).2).getD i ([], 0)).1 ≠ []) ∧
    ((((discoverLoop latest ps tol events [] 0).2).getD 0 ([], 0)).2 =
      if matchingNames latest
          (((discoverLoop latest ps tol events [] 0).2).getD 0 ([], 0)).1 = []
        then 1 else 0) ∧
    (∀ i, i + 1 < (discoverLoop latest ps tol events [] 0).2.length →
      (((discoverLoop latest ps tol events [] 0).2).getD (i + 1) ([], 0)).2 =
        if matchingNames latest
            (((discoverLoop latest ps tol events [] 0).2).getD (i + 1) ([], 0)).1 =
            [] then
          (((discoverLoop latest ps tol events [] 0).2).getD i ([], 0)).2 + 1
        else 0) ∧
    (∀ n ∈ (discoverLoop latest ps tol events [] 0).1,
      ∃ ev ∈ events, ev.update_id = some latest ∧ ev.flow_name = some n) := by
  rw [discoverLoop_eq_fuel latest ps tol events.length events [] 0 le_rfl]
  refine ⟨fuelLoop_steps_ne_nil latest ps tol events.length events [] 0,
    fuelLoop_steps_len latest ps tol events.length events [] 0,
    fuelLoop_last_stop latest ps tol events.length events [] 0,
    fuelLoop_nonfinal latest ps tol events.length events [] 0,
    fuelLoop_counter_head latest ps tol events.length events [] 0,
    fuelLoop_counter_chain latest ps tol events.length events [] 0, ?_⟩
  intro n hn
  rcases fuelLoop_names_sound latest ps tol events.length events [] 0 n hn with h | h
  · exact absurd h (List.not_mem_nil n)
  · exact h

/-- C1 witness: the amended characterization applied to a concrete two-page
run: the first fetched page is nonempty with counter below tolerance, and the
collected name comes from a matching event. -/
theorem c1_witness :
    (¬2 ≤ (((discoverLoop "u".toList 1 2
        [⟨some "u".toList, some "a".toList⟩] [] 0).2).getD 0 ([], 0)).2 ∧
      (((discoverLoop "u".toList 1 2
        [⟨some "u".toList, some "a".toList⟩] [] 0).2).getD 0 ([], 0)).1 ≠ []) ∧
    (∃ ev ∈ [(⟨some "u".toList, some "a".toList⟩ : EventOrigin)],
      ev.update_id = some "u".toList ∧ ev.flow_name = some "a".toList) := by
  have hlen : 0 + 1 < (discoverLoop "u".toList 1 2
      [⟨some "u".toList, some "a".toList⟩] [] 0).2.length := by
    rw [discoverLoop_eq_fuel _ _ _ 1 _ _ _ (by decide)]
    decide
  have hmem : "a".toList ∈ (discoverLoop "u".toList 1 2
      [⟨some "u".toList, some "a".toList⟩] [] 0).1 := by
    rw [discoverLoop_eq_fuel _ _ _ 1 _ _ _ (by decide)]
    decide
  exact ⟨(c1_pagination_loop_amended "u".toList 1 2
      [⟨some "u".toList, some "a".toList⟩]).2.2.2.1 0 hlen,
    (c1_pagination_loop_amended "u".toList 1 2
      [⟨some "u".toList, some "a".toList⟩]).2.2.2.2.2.2 "a".toList hmem⟩

theorem colLines_length (p : PyStr) (kvs : List (PyStr × PyNode)) :
    (colLines p kvs).length = kvs.length := by
  induction kvs with
  | nil => rfl
  | cons kv rest ih => simp [colLines, ih]

theorem colLines_pref (p : PyStr) (kvs : List (PyStr × PyNode)) :
    colLines p kvs = (colLines [] kvs).map (fun l => p ++ l) := by
  induction kvs with
  | nil => rfl
  | cons kv rest ih =>
    simp only [colLines, List.map_cons, List.nil_append]
    rw [ih]
    simp [List.append_assoc]

theorem allStrVals_colsToNode (cols : List (PyStr × PyStr)) :
    allStrVals (colsToNode cols) = true := by
  induction cols with
  | nil => rfl
  | cons c rest ih =>
    simp only [colsToNode, List.map_cons, allStrVals, List.all_cons] at *
    exact ih

/-- The number of entries (schemas, tables and columns) of a nested dict of
the claimed `{schema -> {table -> {} or {col -> dtype}}}` shape. -/
def entryCount3 (S : List (PyStr × List (PyStr × List (PyStr × PyStr)))) : Nat :=
  (S.map (fun s => 1 + (s.2.map (fun t => 1 + t.2.length)).sum)).sum

theorem itemsWeight_mapTables (tabs : List (PyStr × List (PyStr × PyStr))) :
    itemsWeight (tabs.map (fun t => (t.1, PyNode.dict (colsToNode t.2)))) =
      (tabs.map (fun t => 1 + t.2.length)).sum := by
  induction tabs with
  | nil => rfl
  | cons t rest ih =>
    simp only [List.map_cons, itemsWeight, List.sum_cons]
    rw [ih]
    have hlw : lineWeight (PyNode.dict (colsToNode t.2)) = t.2.length := by
      rw [lineWeight, if_pos (allStrVals_colsToNode t.2), colsToNode,
        List.length_map]
    omega

theorem lineWeight_tables (tabs : List (PyStr × List (PyStr × PyStr))) :
    lineWeight (PyNode.dict (tabs.map (fun t => (t.1, PyNode.dict (colsToNode t.2))))) =
      (tabs.map (fun t => 1 + t.2.length)).sum := by
  cases tabs with
  | nil => rfl
  | cons t rest =>
    rw [lineWeight, if_neg (by simp [allStrVals, List.map_cons])]
    exact itemsWeight_mapTables (t :: rest)

theorem itemsWeight_nestedOfSchemas
    (S : List (PyStr × List (PyStr × List (PyStr × PyStr)))) :
    itemsWeight (nestedOfSchemas S) = entryCount3 S := by
  induction S with
  | nil => rfl
  | cons s rest ih =>
    simp only [nestedOfSchemas, List.map_cons, itemsWeight, entryCount3,
      List.sum_cons] at *
    rw [lineWeight_tables, ih]

theorem colLines_pref_rel (p q : PyStr) (kvs : List (PyStr × PyNode)) :
    colLines (p ++ q) kvs = (colLines q kvs).map (fun l => p ++ l) := by
  induction kvs with
  | nil => rfl
  | cons kv rest ih =>
    simp only [colLines, List.map_cons]
    rw [ih]
    simp [List.append_assoc]

theorem walkItems_length_aux :
    ∀ (N : Nat) (items : List (PyStr × PyNode)) (pref : PyStr),
      entrySize items ≤ N →
      (walkItems false pref items).length = itemsWeight items := by
  intro N
  induction N with
  | zero =>
    intro items pref hsz
    cases items with
    | nil => simp [walkItems, itemsWeight]
    | cons kv rest =>
      exact absurd hsz (by rw [entrySize]; omega)
  | succ N ih =>
    intro items pref hsz
    match items with
    | [] => simp [walkItems, itemsWeight]
    | (name, PyNode.str s) :: rest =>
      rw [entrySize, nodeSize] at hsz
      simp only [walkItems, List.length_cons, itemsWeight, lineWeight]
      rw [ih rest pref (by omega)]
      omega
    | (name, PyNode.dict kvs) :: rest =>
      rw [entrySize, nodeSize] at hsz
      have hsz' : entrySize rest ≤ N := by omega
      have hszk : entrySize (bSort ciKeyLe kvs) ≤ N := by
        rw [entrySize_perm (bSort_perm ciKeyLe kvs)]
        omega
      simp only [walkItems]
      have hspacer :
          (if (false && !rest.isEmpty) = true then [pref ++ ['│']] else []) =
            ([] : List PyStr) := by
        simp
      rw [hspacer]
      by_cases hall : allStrVals kvs = true
      · rw [if_pos hall]
        simp only [List.length_cons, List.length_append, colLines_length,
          (bSort_perm ciKeyLe kvs).length_eq, List.length_nil]
        rw [ih rest pref hsz']
        simp only [itemsWeight, lineWeight, if_pos hall]
        omega
      · rw [if_neg hall]
        simp only [List.length_cons, List.length_append, List.length_nil]
        rw [ih rest pref hsz', ih (bSort ciKeyLe kvs) _ hszk,
          itemsWeight_perm (bSort_perm ciKeyLe kvs)]
        simp only [itemsWeight, lineWeight, if_neg hall]
        omega

theorem walkItems_pref_rel (sp : Bool) :
    ∀ (N : Nat) (items : List (PyStr × PyNode)) (p q : PyStr),
      entrySize items ≤ N →
      walkItems sp (p ++ q) items = (walkItems sp q items).map (fun l => p ++ l) := by
  intro N
  induction N with
  | zero =>
    intro items p q hsz
    cases items with
    | nil => simp [walkItems]
    | cons kv rest =>
      exact absurd hsz (by rw [entrySize]; omega)
  | succ N ih =>
    intro items p q hsz
    match items with
    | [] => simp [walkItems]
    | (name, PyNode.str s) :: rest =>
      rw [entrySize, nodeSize] at hsz
      simp only [walkItems, List.map_cons]
      rw [ih rest p q (by omega)]
      simp [List.append_assoc]
    | (name, PyNode.dict kvs) :: rest =>
      rw [entrySize, nodeSize] at hsz
      have hsz' : entrySize rest ≤ N := by omega
      have hszk : entrySize (bSort ciKeyLe kvs) ≤ N := by
        rw [entrySize_perm (bSort_perm ciKeyLe kvs)]
        omega
      simp only [walkItems]
      by_cases hall : allStrVals kvs = true
      · rw [if_pos hall, if_pos hall]
        simp only [List.append_assoc]
        rw [colLines_pref_rel p _ (bSort ciKeyLe kvs)]
        rw [ih rest p q hsz']
        by_cases hspc : (sp && !rest.isEmpty) = true
        · rw [if_pos hspc, if_pos hspc]
          simp [List.map_append, List.append_assoc]
        · rw [if_neg hspc, if_neg hspc]
          simp [List.map_append, List.append_assoc]
      · rw [if_neg hall, if_neg hall]
        simp only [List.append_assoc]
        rw [ih (bSort ciKeyLe kvs) p _ hszk]
        rw [ih rest p q hsz']
        by_cases hspc : (sp && !rest.isEmpty) = true
        · rw [if_pos hspc, if_pos hspc]
          simp [List.map_append, List.append_assoc]
        · rw [if_neg hspc, if_neg hspc]
          simp [List.map_append, List.append_assoc]

theorem ciKeyLe_trans (a b c : PyStr × PyNode) (h1 : ciKeyLe a b = true)
    (h2 : ciKeyLe b c = true) : ciKeyLe a c = true :=
  pyStrLe_trans (pyLower a.1) (pyLower b.1) (pyLower c.1) h1 h2

theorem ciKeyLe_total (a b : PyStr × PyNode) :
    ciKeyLe a b = true ∨ ciKeyLe b a = true :=
  pyStrLe_total (pyLower a.1) (pyLower b.1)

theorem colLines_getD (p : PyStr) :
    ∀ (kvs : List (PyStr × PyNode)) (i : Nat), i < kvs.length →
      (colLines p kvs).getD i [] =
        p ++ (if i = kvs.length - 1 then "└── ".toList else "├── ".toList) ++
          (kvs.getD i ([], PyNode.str [])).1 ++ " : ".toList ++
          nodeStr (kvs.getD i ([], PyNode.str [])).2 := by
  intro kvs
  induction kvs with
  | nil =>
    intro i hi
    simp at hi
  | cons kv rest ih =>
    intro i hi
    cases i with
    | zero =>
      simp only [colLines, List.getD_cons_zero]
      cases rest with
      | nil => simp
      | cons r rs => simp
    | succ i =>
      simp only [colLines, List.getD_cons_succ]
      simp only [List.length_cons] at hi
      have hilt : i < rest.length := by omega
      rw [ih i hilt]
      have hlen : 0 < rest.length := by omega
      simp only [List.length_cons]
      by_cases hc : i = rest.length - 1
      · rw [if_pos hc, if_pos (by omega)]
      · rw [if_neg hc, if_neg (by omega)]

/-- C5: `_render_ascii`'s first line is the root label followed by `/`; on a
nested dict of the claimed `{schema -> {table -> {} or {col -> dtype}}}`
shape every entry produces exactly one line (for the compact style, the line
count is one more than the number of schemas, tables and columns); the lines
of each walk at a prefix are the unprefixed lines preceded by that prefix
(so descendants extend their parent's prefix, with `│   ` under a non-final
sibling and four spaces under a final one, by definition of the walk); the
sibling order used at every level is the case-insensitive sorted permutation
of the dict items; each column leaf line is
`prefix ++ branch ++ "name : dtype"` with `└── ` on the final column and
`├── ` otherwise; and the rendered string joins the lines with newlines plus
a trailing newline. -/
theorem c5_render_ascii_properties :
    (∀ (root : PyStr) (nested : List (PyStr × PyNode)) (sp : Bool),
      (render_ascii_lines root nested sp).headD [] = root ++ ['/']) ∧
    (∀ (root : PyStr) (S : List (PyStr × List (PyStr × List (PyStr × PyStr)))),
      (render_ascii_lines root (nestedOfSchemas S) false).length =
        1 + entryCount3 S) ∧
    (∀ (sp : Bool) (pref : PyStr) (items : List (PyStr × PyNode)),
      walkItems sp pref items = (walkItems sp [] items).map (fun l => pref ++ l)) ∧
    (∀ (kvs : List (PyStr × PyNode)),
      (bSort ciKeyLe kvs).Pairwise (fun a b => ciKeyLe a b = true) ∧
        (bSort ciKeyLe kvs).Perm kvs) ∧
    (∀ (p : PyStr) (kvs : List (PyStr × PyNode)) (i : Nat), i < kvs.length →
      (colLines p kvs).getD i [] =
        p ++ (if i = kvs.length - 1 then "└── ".toList else "├── ".toList) ++
          (kvs.getD i ([], PyNode.str [])).1 ++ " : ".toList ++
          nodeStr (kvs.getD i ([], PyNode.str [])).2) ∧
    (∀ (root : PyStr) (nested : List (PyStr × PyNode)) (sp : Bool),
      render_ascii root nested sp = joinLines (render_ascii_lines root nested sp)) := by
  refine ⟨fun root nested sp => rfl, ?_, ?_, ?_, colLines_getD, fun root nested sp => rfl⟩
  · intro root S
    rw [render_ascii_lines, List.length_cons,
      walkItems_length_aux (entrySize (bSort ciKeyLe (nestedOfSchemas S)))
        (bSort ciKeyLe (nestedOfSchemas S)) [] le_rfl,
      itemsWeight_perm (bSort_perm ciKeyLe (nestedOfSchemas S)),
      itemsWeight_nestedOfSchemas]
    omega
  · intro sp pref items
    have h := walkItems_pref_rel sp (entrySize items) items pref [] le_rfl
    rw [List.append_nil] at h
    exact h
  · intro kvs
    exact ⟨bSort_sorted ciKeyLe ciKeyLe_trans ciKeyLe_total kvs,
      bSort_perm ciKeyLe kvs⟩

/-- C5 witness: the column-line format applied to a one-column leaf. -/
theorem c5_witness :
    (colLines [] [("id".toList, PyNode.str "int".toList)]).getD 0 [] =
      "└── id : int".toList := by
  rw [c5_render_ascii_properties.2.2.2.2.1 []
    [("id".toList, PyNode.str "int".toList)] 0 (by decide)]
  decide
